import Mathlib

/-! Circle area programs: `demo/circle.c` and `example/circle.c`.

Both programs are a single `main`:

```
float radius, area;
printf(<prompt>);
scanf("%f", &radius);
if (radius < 0) { fprintf(stderr, "Negative radius values are not allowed.\n"); exit(1); }
area = 3.14159 * radius * radius;
printf("Area: %f\n", area);
return 0;
```

The embedding below keeps the arithmetic of the C program exact:

* `float` is IEEE 754 binary32, given by its three bit fields (`F32`), so that every
  bit pattern `scanf` can store (zeros, subnormals, infinities, NaNs) is a value;
* `3.14159` is a `double` constant and each `*` is a binary64 multiplication of the
  promoted operands, rounded to nearest, ties to even (`FLT_EVAL_METHOD` 0);
* the assignment to `area` narrows the binary64 product to binary32, again to nearest-even
  (a product beyond the binary32 range becomes an infinity);
* `%f` prints the promoted value with six fractional digits, correctly rounded
  (ties to even), and `inf` / `nan` for the non-finite values.

Library calls are the boundary of the model: the effect of `scanf("%f", &radius)` on the
program is either a converted value stored in `radius`, or nothing at all (matching
failure, end of input), in which case `radius` keeps its indeterminate initial content.
-/

namespace Circle

/-! ## Floating-point values -/

/-- IEEE 754 binary32 (`float`), as its sign, biased exponent and fraction fields. -/
structure F32 where
  sign : Bool
  expo : Fin 256
  frac : Fin 8388608
  deriving DecidableEq

/-- Unpacked floating-point datum: a NaN, an infinity, or the finite number
`(-1)^neg * m * 2^e`. -/
inductive FP where
  | nan (neg : Bool)
  | inf (neg : Bool)
  | fin (neg : Bool) (m : Nat) (e : Int)
  deriving DecidableEq

/-- Parameters of a binary interchange format: precision in bits, and the exponents of the
smallest and of the largest quantum (unit in the last place) of a finite number. -/
structure Fmt where
  prec : Nat
  qmin : Int
  qmax : Int

/-- The format of `float`. -/
def binary32 : Fmt := ⟨24, -149, 104⟩

/-- The format of `double`. -/
def binary64 : Fmt := ⟨53, -1074, 971⟩

/-- Value denoted by the bit fields of a `float` (the conversion is exact, and it is also
the promotion of a `float` operand to `double`). -/
def F32.toFP (x : F32) : FP :=
  if x.expo.val = 255 then
    if x.frac.val = 0 then FP.inf x.sign else FP.nan x.sign
  else if x.expo.val = 0 then FP.fin x.sign x.frac.val (-149)
  else FP.fin x.sign (8388608 + x.frac.val) ((x.expo.val : Int) - 150)

/-- Bit length with explicit fuel. -/
def bitLenAux : Nat → Nat → Nat
  | 0, _ => 0
  | fuel + 1, n => if n = 0 then 0 else bitLenAux fuel (n / 2) + 1

/-- Number of bits of `n` (`0` for `0`). -/
def bitLen (n : Nat) : Nat := bitLenAux n n

/-- Nearest integer to `m / 2^k`, ties to the even neighbour. -/
def rneShift (m k : Nat) : Nat :=
  let q := m / 2 ^ k
  let r := m % 2 ^ k
  if 2 * r < 2 ^ k then q
  else if 2 ^ k < 2 * r then q + 1
  else if q % 2 = 0 then q else q + 1

/-- Nearest integer to `m * 2^e / 2^q`, ties to the even neighbour. -/
def rneAt (m : Nat) (e q : Int) : Nat :=
  rneShift (m * 2 ^ (e - q).toNat) (q - e).toNat

/-- Exponent of the quantum at which `m * 2^e` (`m ≠ 0`) is rounded: the one that leaves
`prec` significant bits, but not below `qmin`. -/
def Fmt.quantum (f : Fmt) (m : Nat) (e : Int) : Int :=
  max (e + (bitLen m : Int) - (f.prec : Int)) f.qmin

/-- Rounding of an exact result to a format: a zero stays a zero of the same sign; otherwise
the significand is rounded to nearest-even at the quantum of the value, and a result of
magnitude `2^(prec + qmax)` or more overflows to infinity. -/
def FP.round (f : Fmt) : FP → FP
  | FP.nan s => FP.nan s
  | FP.inf s => FP.inf s
  | FP.fin s m e =>
    if m = 0 then FP.fin s 0 f.qmin else
    let q : Int := f.quantum m e
    let m' := rneAt m e q
    if (f.prec : Int) + f.qmax < (bitLen m' : Int) + q then FP.inf s else FP.fin s m' q

/-- Exact product of two data, with the IEEE rules for the special values: a NaN operand
propagates (the first one when both are), and infinity times zero is the default NaN. -/
def FP.mulExact : FP → FP → FP
  | FP.nan s, _ => FP.nan s
  | FP.inf _, FP.nan t => FP.nan t
  | FP.fin _ _ _, FP.nan t => FP.nan t
  | FP.inf s, FP.inf t => FP.inf (xor s t)
  | FP.inf s, FP.fin t n _ => if n = 0 then FP.nan true else FP.inf (xor s t)
  | FP.fin s m _, FP.inf t => if m = 0 then FP.nan true else FP.inf (xor s t)
  | FP.fin s m e, FP.fin t n d => FP.fin (xor s t) (m * n) (e + d)

/-- The `double` operator `*`. -/
def FP.mul64 (a b : FP) : FP := (FP.mulExact a b).round binary64

/-- Signed significand of a finite number once scaled to the quantum `2^e0` (`e0 ≤ e`). -/
def scaled (s : Bool) (m : Nat) (e e0 : Int) : Int :=
  (if s then -1 else 1) * ((m * 2 ^ (e - e0).toNat : Nat) : Int)

/-- The comparison `a < b` of C: false as soon as an operand is a NaN. -/
def FP.lt : FP → FP → Bool
  | FP.nan _, _ => false
  | FP.inf _, FP.nan _ => false
  | FP.fin _ _ _, FP.nan _ => false
  | FP.inf s, FP.inf t => s && !t
  | FP.inf s, FP.fin _ _ _ => s
  | FP.fin _ _ _, FP.inf t => !t
  | FP.fin s m e, FP.fin t n d => decide (scaled s m e (min e d) < scaled t n d (min e d))

/-- The comparison `a <= b` of C: false as soon as an operand is a NaN. -/
def FP.le : FP → FP → Bool
  | FP.nan _, _ => false
  | FP.inf _, FP.nan _ => false
  | FP.fin _ _ _, FP.nan _ => false
  | FP.inf s, FP.inf t => s || !t
  | FP.inf s, FP.fin _ _ _ => s
  | FP.fin _ _ _, FP.inf t => !t
  | FP.fin s m e, FP.fin t n d => decide (scaled s m e (min e d) ≤ scaled t n d (min e d))

/-- Conversion of an `int` operand (exact for the constant `0` used here). -/
def FP.ofInt (n : Int) : FP := FP.fin (decide (n < 0)) n.natAbs 0

/-- The `double` constant `3.14159`: the binary64 number nearest to 314159/100000. -/
def lit_3_14159 : FP := FP.fin false 3537115888337719 (-50)

/-! ## `printf("%f")` -/

/-- The character of a decimal digit. -/
def digitChar (d : Nat) : Char := Char.ofNat (48 + d % 10)

/-- Decimal digits of `n`, most significant first, at most `fuel` of them. -/
def natDecAux : Nat → Nat → List Char
  | 0, _ => []
  | fuel + 1, n => (if n / 10 = 0 then [] else natDecAux fuel (n / 10)) ++ [digitChar n]

/-- Decimal digits of `n` without leading zeros (`"0"` for `0`). -/
def natDec (n : Nat) : List Char := natDecAux (n + 1) n

/-- The last `w` decimal digits of `n`, zero padded. -/
def fixDec : Nat → Nat → List Char
  | 0, _ => []
  | w + 1, n => fixDec w (n / 10) ++ [digitChar n]

/-- Text produced by the conversion `%f` (precision 6) for a promoted `float`. -/
def fmt_f : FP → String
  | FP.nan s => if s then "-nan" else "nan"
  | FP.inf s => if s then "-inf" else "inf"
  | FP.fin s m e =>
    let n := rneAt (m * 1000000) e 0
    (if s then "-" else "") ++ String.mk (natDec (n / 1000000)) ++ "."
      ++ String.mk (fixDec 6 (n % 1000000))

/-! ## The programs -/

/-- Observable actions of a run, in program order. -/
inductive Event where
  | out (s : String)
  | err (s : String)
  | scan
  deriving DecidableEq

/-- A finished run: its actions and its exit status. -/
structure Run where
  trace : List Event
  status : Nat
  deriving DecidableEq

/-- What a run meets outside the program text: the outcome of `scanf("%f", &radius)` on the
standard input (`some v` when a value is converted and stored, `none` on a matching failure
or end of input), and the indeterminate initial content of the variable `radius`. -/
structure Env where
  scanned : Option F32
  garbage : F32

/-- Everything written to standard output. -/
def stdoutOf : List Event → String
  | [] => ""
  | Event.out s :: t => s ++ stdoutOf t
  | _ :: t => stdoutOf t

/-- Everything written to standard error. -/
def stderrOf : List Event → String
  | [] => ""
  | Event.err s :: t => s ++ stderrOf t
  | _ :: t => stderrOf t

/-- Content of `radius` after the call of `scanf`. -/
def Env.radius (env : Env) : F32 :=
  match env.scanned with
  | some v => v
  | none => env.garbage

/-- The expression `3.14159 * radius * radius`, evaluated in `double` from the left and
converted to `float`, as a function of the value of `radius`. -/
def areaOf (x : FP) : FP :=
  (FP.mul64 (FP.mul64 lit_3_14159 x) x).round binary32

/-- The statement `area = 3.14159 * radius * radius;` with `float radius, area`. -/
def area (radius : F32) : FP := areaOf radius.toFP

end Circle

namespace ExampleCircle
open Circle

/-- Model of `main` in `example/circle.c`. -/
def main (env : Env) : Run :=
  let t := [Event.out "Enter radius of circle: "]
  let t := t ++ [Event.scan]
  let radius := env.radius
  if FP.lt radius.toFP (FP.ofInt 0) then
    ⟨t ++ [Event.err "Negative radius values are not allowed.\n"], 1⟩
  else
    let area := area radius
    ⟨t ++ [Event.out ("Area: " ++ fmt_f area ++ "\n")], 0⟩

end ExampleCircle

namespace DemoCircle
open Circle

/-- Model of `main` in `demo/circle.c`. -/
def main (env : Env) : Run :=
  let t := [Event.out "Enter radiu of circle: "]
  let t := t ++ [Event.scan]
  let radius := env.radius
  if FP.lt radius.toFP (FP.ofInt 0) then
    ⟨t ++ [Event.err "Negative radius values are not allowed.\n"], 1⟩
  else
    let area := area radius
    ⟨t ++ [Event.out ("Area: " ++ fmt_f area ++ "\n")], 0⟩

end DemoCircle

namespace Circle

/-! ## Sample inputs -/

/-- The `float` +0. -/
def f32_zero : F32 := ⟨false, 0, 0⟩

/-- The `float` 1. -/
def f32_one : F32 := ⟨false, 127, 0⟩

/-- The `float` -2. -/
def f32_neg_two : F32 := ⟨true, 128, 0⟩

/-- The `float` 5. -/
def f32_five : F32 := ⟨false, 129, 2097152⟩

/-- The `float` 2^64. -/
def f32_2p64 : F32 := ⟨false, 191, 0⟩

/-- The `float` 2^-80. -/
def f32_2m80 : F32 := ⟨false, 47, 0⟩

/-- Rational value of a finite datum (`0` for the others). -/
def FP.toRat : FP → ℚ
  | FP.fin s m e => (if s then -1 else 1) * (m : ℚ) * (2 : ℚ) ^ e
  | _ => 0

/-- Whether a datum is a finite number. -/
def FP.isFinite : FP → Bool
  | FP.fin _ _ _ => true
  | _ => false

/-- Number denoted by a string of decimal digits. -/
def decVal (l : List Char) : Nat :=
  l.foldl (fun a c => 10 * a + (c.toNat - 48)) 0

/-- Two data of the same kind, sign and value. -/
def FP.same : FP → FP → Prop
  | FP.nan s, FP.nan t => s = t
  | FP.inf s, FP.inf t => s = t
  | FP.fin s m e, FP.fin t n d => s = t ∧ (m : ℚ) * (2 : ℚ) ^ e = (n : ℚ) * (2 : ℚ) ^ d
  | _, _ => False

/-- Order of the non-negative data by value, `+inf` on top; it relates nothing else. -/
def LE0 : FP → FP → Prop
  | FP.fin false m e, FP.fin false n d => (m : ℚ) * (2 : ℚ) ^ e ≤ (n : ℚ) * (2 : ℚ) ^ d
  | FP.fin false _ _, FP.inf false => True
  | FP.inf false, FP.inf false => True
  | _, _ => False

end Circle

namespace Circle

/-! ## Bit length -/

theorem bitLenAux_le_iff (fuel : Nat) : ∀ n k : Nat, n ≤ fuel →
    (bitLenAux fuel n ≤ k ↔ n < 2 ^ k) := by
  induction fuel with
  | zero =>
    intro n k hn
    have h0 : n = 0 := by omega
    subst h0
    simp [bitLenAux]
  | succ fuel ih =>
    intro n k hn
    by_cases h0 : n = 0
    · subst h0
      simp [bitLenAux]
    · have hhalf : n / 2 ≤ fuel := by omega
      simp only [bitLenAux, if_neg h0]
      cases k with
      | zero =>
        simp only [pow_zero, Nat.lt_one_iff]
        omega
      | succ k =>
        rw [Nat.add_le_add_iff_right, ih (n / 2) k hhalf, pow_succ]
        omega

theorem bitLen_le_iff (n k : Nat) : bitLen n ≤ k ↔ n < 2 ^ k :=
  bitLenAux_le_iff n n k (le_refl n)

theorem lt_two_pow_bitLen (n : Nat) : n < 2 ^ bitLen n :=
  (bitLen_le_iff n (bitLen n)).mp (le_refl _)

theorem bitLen_pos {n : Nat} (h : n ≠ 0) : 0 < bitLen n := by
  by_contra hc
  have h1 : bitLen n ≤ 0 := by omega
  have h2 := (bitLen_le_iff n 0).mp h1
  simp at h2
  exact h h2

theorem two_pow_bitLen_le {n : Nat} (h : n ≠ 0) : 2 ^ (bitLen n - 1) ≤ n := by
  by_contra hc
  have h1 : n < 2 ^ (bitLen n - 1) := by omega
  have h2 := (bitLen_le_iff n (bitLen n - 1)).mpr h1
  have h3 := bitLen_pos h
  omega

theorem bitLen_mono {a b : Nat} (h : a ≤ b) : bitLen a ≤ bitLen b :=
  (bitLen_le_iff a (bitLen b)).mpr (lt_of_le_of_lt h (lt_two_pow_bitLen b))

theorem lt_bitLen_iff (n k : Nat) : k < bitLen n ↔ 2 ^ k ≤ n := by
  rw [← not_le, bitLen_le_iff, not_lt]

/-! ## Rounding a quotient by a power of two -/

theorem rneShift_mul (a k : Nat) : rneShift (a * 2 ^ k) k = a := by
  have hk : 0 < 2 ^ k := Nat.two_pow_pos _
  simp [rneShift, Nat.mul_div_cancel _ hk, hk]

theorem rneShift_scale (m k j : Nat) : rneShift (m * 2 ^ j) (k + j) = rneShift m k := by
  have hj : 0 < 2 ^ j := Nat.two_pow_pos _
  have hdiv : m * 2 ^ j / 2 ^ (k + j) = m / 2 ^ k := by
    rw [pow_add, Nat.mul_div_mul_right _ _ hj]
  have hmod : m * 2 ^ j % 2 ^ (k + j) = m % 2 ^ k * 2 ^ j := by
    rw [pow_add, Nat.mul_mod_mul_right]
  unfold rneShift
  simp only [hdiv, hmod]
  have e1 : (2 * (m % 2 ^ k * 2 ^ j) < 2 ^ (k + j)) ↔ (2 * (m % 2 ^ k) < 2 ^ k) := by
    rw [pow_add, ← mul_assoc]
    exact Nat.mul_lt_mul_right hj
  have e2 : (2 ^ (k + j) < 2 * (m % 2 ^ k * 2 ^ j)) ↔ (2 ^ k < 2 * (m % 2 ^ k)) := by
    rw [pow_add, ← mul_assoc]
    exact Nat.mul_lt_mul_right hj
  simp only [e1, e2]

theorem rneShift_ge_div (m k : Nat) : m / 2 ^ k ≤ rneShift m k := by
  unfold rneShift
  simp only
  split_ifs <;> omega

theorem rneShift_le_div_succ (m k : Nat) : rneShift m k ≤ m / 2 ^ k + 1 := by
  unfold rneShift
  simp only
  split_ifs <;> omega

theorem rneShift_mono {a b : Nat} (k : Nat) (h : a ≤ b) : rneShift a k ≤ rneShift b k := by
  have hk : 0 < 2 ^ k := Nat.two_pow_pos _
  have hdiv : a / 2 ^ k ≤ b / 2 ^ k := Nat.div_le_div_right h
  rcases Nat.lt_or_ge (a / 2 ^ k) (b / 2 ^ k) with hlt | hge
  · calc rneShift a k ≤ a / 2 ^ k + 1 := rneShift_le_div_succ a k
      _ ≤ b / 2 ^ k := hlt
      _ ≤ rneShift b k := rneShift_ge_div b k
  · have heq : a / 2 ^ k = b / 2 ^ k := le_antisymm hdiv hge
    have ha := Nat.div_add_mod a (2 ^ k)
    have hb := Nat.div_add_mod b (2 ^ k)
    have hr : a % 2 ^ k ≤ b % 2 ^ k := by
      rw [heq] at ha
      omega
    unfold rneShift
    simp only [heq]
    split_ifs <;> omega

/-- The rounded quotient is within half a unit of the exact one. -/
theorem rneShift_err (m k : Nat) :
    2 * (rneShift m k * 2 ^ k) ≤ 2 * m + 2 ^ k ∧ 2 * m ≤ 2 * (rneShift m k * 2 ^ k) + 2 ^ k := by
  have hk : 0 < 2 ^ k := Nat.two_pow_pos _
  have hm := Nat.div_add_mod m (2 ^ k)
  have hlt := Nat.mod_lt m hk
  unfold rneShift
  simp only
  generalize m / 2 ^ k = q at *
  generalize m % 2 ^ k = r at *
  generalize 2 ^ k = P at *
  split_ifs <;> constructor <;> nlinarith

/-- A value below the midpoint above `n` rounds to at most `n`. -/
theorem rneShift_le_of_lt_mid {m k n : Nat} (h : 2 * m < (2 * n + 1) * 2 ^ k) :
    rneShift m k ≤ n := by
  have hk : 0 < 2 ^ k := Nat.two_pow_pos _
  have hm := Nat.div_add_mod m (2 ^ k)
  have hlt := Nat.mod_lt m hk
  have hq : m / 2 ^ k ≤ n := by
    by_contra hc
    have h1 : n + 1 ≤ m / 2 ^ k := by omega
    have h2 : (n + 1) * 2 ^ k ≤ m / 2 ^ k * 2 ^ k := Nat.mul_le_mul_right _ h1
    generalize m / 2 ^ k = q at *
    generalize m % 2 ^ k = r at *
    generalize 2 ^ k = P at *
    nlinarith
  rcases Nat.lt_or_ge (m / 2 ^ k) n with h1 | h1
  · exact le_trans (rneShift_le_div_succ m k) h1
  · have heq : m / 2 ^ k = n := le_antisymm hq h1
    unfold rneShift
    simp only [heq]
    rw [heq] at hm
    have hr : 2 * (m % 2 ^ k) < 2 ^ k := by nlinarith
    simp [hr]

end Circle

namespace Circle

/-! ## Rounding at a quantum, in terms of rational values -/

theorem two_zpow_pos (n : Int) : (0 : ℚ) < (2 : ℚ) ^ n := zpow_pos (by norm_num) n

theorem cast_scale (m : Nat) (e q : Int) (K : Nat) (h : q - e ≤ K) :
    ((m * 2 ^ (e - q + K).toNat : Nat) : ℚ) = (m : ℚ) * (2 : ℚ) ^ e * (2 : ℚ) ^ ((K : Int) - q) := by
  have hj : ((e - q + K).toNat : Int) = e - q + K := Int.toNat_of_nonneg (by omega)
  push_cast
  rw [← zpow_natCast (2 : ℚ) (e - q + K).toNat, hj, mul_assoc,
    ← zpow_add₀ (by norm_num : (2 : ℚ) ≠ 0)]
  congr 2
  ring

theorem rneAt_eq (m : Nat) (e q : Int) (K : Nat) (h : q - e ≤ K) :
    rneAt m e q = rneShift (m * 2 ^ (e - q + K).toNat) K := by
  unfold rneAt
  rcases le_or_lt q e with hqe | hqe
  · have h1 : (q - e).toNat = 0 := by omega
    have h2 : (e - q + K).toNat = (e - q).toNat + K := by omega
    rw [h1, h2, pow_add, ← mul_assoc]
    have := rneShift_scale (m * 2 ^ (e - q).toNat) 0 K
    simpa using this.symm
  · have h1 : (e - q).toNat = 0 := by omega
    have h2 : K = (q - e).toNat + (e - q + K).toNat := by omega
    rw [h1, pow_zero, mul_one]
    have := rneShift_scale m (q - e).toNat (e - q + K).toNat
    rw [← h2] at this
    exact this.symm

theorem rneAt_self (n : Nat) (q : Int) : rneAt n q q = n := by
  unfold rneAt
  have := rneShift_mul n 0
  simpa using this

theorem rneAt_mono {m1 m2 : Nat} {e1 e2 : Int} (q : Int)
    (h : (m1 : ℚ) * (2 : ℚ) ^ e1 ≤ (m2 : ℚ) * (2 : ℚ) ^ e2) :
    rneAt m1 e1 q ≤ rneAt m2 e2 q := by
  obtain ⟨K, hK1, hK2⟩ : ∃ K : Nat, q - e1 ≤ K ∧ q - e2 ≤ K :=
    ⟨max (q - e1).toNat (q - e2).toNat, by omega, by omega⟩
  rw [rneAt_eq m1 e1 q K hK1, rneAt_eq m2 e2 q K hK2]
  apply rneShift_mono
  have hc : ((m1 * 2 ^ (e1 - q + K).toNat : Nat) : ℚ) ≤ ((m2 * 2 ^ (e2 - q + K).toNat : Nat) : ℚ) := by
    rw [cast_scale m1 e1 q K hK1, cast_scale m2 e2 q K hK2]
    exact mul_le_mul_of_nonneg_right h (le_of_lt (two_zpow_pos _))
  exact_mod_cast hc

theorem rneAt_le_of_le {m n : Nat} {e q : Int}
    (h : (m : ℚ) * (2 : ℚ) ^ e ≤ (n : ℚ) * (2 : ℚ) ^ q) : rneAt m e q ≤ n := by
  have := rneAt_mono q h
  rwa [rneAt_self] at this

theorem le_rneAt_of_le {m n : Nat} {e q : Int}
    (h : (n : ℚ) * (2 : ℚ) ^ q ≤ (m : ℚ) * (2 : ℚ) ^ e) : n ≤ rneAt m e q := by
  have := rneAt_mono q h
  rwa [rneAt_self] at this

theorem two_zpow_split (K : Nat) (q : Int) :
    (2 : ℚ) ^ q * (2 : ℚ) ^ ((K : Int) - q) = (2 : ℚ) ^ K := by
  rw [← zpow_add₀ (by norm_num : (2 : ℚ) ≠ 0), ← zpow_natCast]
  congr 1
  ring

/-- Rounding at the quantum `2^q` moves a value by at most half a quantum. -/
theorem rneAt_err (m : Nat) (e q : Int) :
    |(rneAt m e q : ℚ) * (2 : ℚ) ^ q - (m : ℚ) * (2 : ℚ) ^ e| ≤ (2 : ℚ) ^ q / 2 := by
  obtain ⟨K, hK⟩ : ∃ K : Nat, q - e ≤ K := ⟨(q - e).toNat, by omega⟩
  have hT := two_zpow_pos ((K : Int) - q)
  have hsplit := two_zpow_split K q
  have herr := rneShift_err (m * 2 ^ (e - q + K).toNat) K
  rw [← rneAt_eq m e q K hK] at herr
  have hM := cast_scale m e q K hK
  obtain ⟨h1, h2⟩ := herr
  have h1' : (2 : ℚ) * ((rneAt m e q : ℚ) * (2 : ℚ) ^ K)
      ≤ 2 * ((m * 2 ^ (e - q + K).toNat : Nat) : ℚ) + (2 : ℚ) ^ K := by exact_mod_cast h1
  have h2' : (2 : ℚ) * ((m * 2 ^ (e - q + K).toNat : Nat) : ℚ)
      ≤ 2 * ((rneAt m e q : ℚ) * (2 : ℚ) ^ K) + (2 : ℚ) ^ K := by exact_mod_cast h2
  rw [hM, ← hsplit] at h1' h2'
  rw [abs_le]
  constructor
  · have : (2 * ((m : ℚ) * (2 : ℚ) ^ e) - 2 * ((rneAt m e q : ℚ) * (2 : ℚ) ^ q) - (2 : ℚ) ^ q)
        * (2 : ℚ) ^ ((K : Int) - q) ≤ 0 := by linarith
    have := nonpos_of_mul_nonpos_left this hT
    linarith
  · have : (2 * ((rneAt m e q : ℚ) * (2 : ℚ) ^ q) - 2 * ((m : ℚ) * (2 : ℚ) ^ e) - (2 : ℚ) ^ q)
        * (2 : ℚ) ^ ((K : Int) - q) ≤ 0 := by linarith
    have := nonpos_of_mul_nonpos_left this hT
    linarith

/-- A value below the midpoint above `n` quanta rounds to at most `n`. -/
theorem rneAt_le_of_lt_mid {m n : Nat} {e q : Int}
    (h : 2 * ((m : ℚ) * (2 : ℚ) ^ e) < (2 * (n : ℚ) + 1) * (2 : ℚ) ^ q) : rneAt m e q ≤ n := by
  obtain ⟨K, hK⟩ : ∃ K : Nat, q - e ≤ K := ⟨(q - e).toNat, by omega⟩
  have hT := two_zpow_pos ((K : Int) - q)
  have hsplit := two_zpow_split K q
  rw [rneAt_eq m e q K hK]
  apply rneShift_le_of_lt_mid
  have hM := cast_scale m e q K hK
  have hc : (2 : ℚ) * ((m * 2 ^ (e - q + K).toNat : Nat) : ℚ) < (2 * (n : ℚ) + 1) * (2 : ℚ) ^ K := by
    rw [hM, ← hsplit]
    have := mul_lt_mul_of_pos_right h hT
    linarith
  exact_mod_cast hc

end Circle

namespace Circle

/-! ## Rounding to a format is monotone -/

theorem val_lt_two_zpow (m : Nat) (e : Int) :
    (m : ℚ) * (2 : ℚ) ^ e < (2 : ℚ) ^ ((bitLen m : Int) + e) := by
  rw [zpow_add₀ (by norm_num : (2 : ℚ) ≠ 0), zpow_natCast]
  apply mul_lt_mul_of_pos_right _ (two_zpow_pos e)
  exact_mod_cast lt_two_pow_bitLen m

theorem two_zpow_le_val {m : Nat} (hm : m ≠ 0) (e : Int) :
    (2 : ℚ) ^ ((bitLen m : Int) - 1 + e) ≤ (m : ℚ) * (2 : ℚ) ^ e := by
  have hpos := bitLen_pos hm
  have h1 : ((bitLen m : Int) - 1) = ((bitLen m - 1 : Nat) : Int) := by omega
  rw [zpow_add₀ (by norm_num : (2 : ℚ) ≠ 0), h1, zpow_natCast]
  apply mul_le_mul_of_nonneg_right _ (le_of_lt (two_zpow_pos e))
  exact_mod_cast two_pow_bitLen_le hm

theorem bitLen_add_mono {m1 m2 : Nat} {e1 e2 : Int} (h1 : m1 ≠ 0)
    (h : (m1 : ℚ) * (2 : ℚ) ^ e1 ≤ (m2 : ℚ) * (2 : ℚ) ^ e2) :
    (bitLen m1 : Int) + e1 ≤ (bitLen m2 : Int) + e2 := by
  by_contra hc
  have hlt : (bitLen m2 : Int) + e2 ≤ (bitLen m1 : Int) - 1 + e1 := by omega
  have ha := val_lt_two_zpow m2 e2
  have hb := two_zpow_le_val h1 e1
  have hm := zpow_le_zpow_right₀ (by norm_num : (1 : ℚ) ≤ 2) hlt
  linarith

theorem quantum_mono (f : Fmt) {m1 m2 : Nat} {e1 e2 : Int} (h1 : m1 ≠ 0)
    (h : (m1 : ℚ) * (2 : ℚ) ^ e1 ≤ (m2 : ℚ) * (2 : ℚ) ^ e2) :
    f.quantum m1 e1 ≤ f.quantum m2 e2 := by
  have := bitLen_add_mono h1 h
  unfold Fmt.quantum
  omega

theorem cast_two_pow_mul (p : Nat) (q : Int) :
    ((2 ^ p : Nat) : ℚ) * (2 : ℚ) ^ q = (2 : ℚ) ^ ((p : Int) + q) := by
  rw [zpow_add₀ (by norm_num : (2 : ℚ) ≠ 0), zpow_natCast]
  push_cast
  rfl

/-- The rounded significand never exceeds `2^prec`. -/
theorem rneAt_quantum_le (f : Fmt) (m : Nat) (e : Int) :
    rneAt m e (f.quantum m e) ≤ 2 ^ f.prec := by
  apply rneAt_le_of_le
  rw [cast_two_pow_mul]
  have ha := val_lt_two_zpow m e
  have hq : (bitLen m : Int) + e ≤ (f.prec : Int) + f.quantum m e := by
    unfold Fmt.quantum
    omega
  have hm := zpow_le_zpow_right₀ (by norm_num : (1 : ℚ) ≤ 2) hq
  linarith

/-- Above the subnormal range the rounded significand has all its `prec` bits. -/
theorem le_rneAt_quantum (f : Fmt) {m : Nat} (hm : m ≠ 0) (e : Int) (hp : 1 ≤ f.prec)
    (hq : f.qmin < f.quantum m e) : 2 ^ (f.prec - 1) ≤ rneAt m e (f.quantum m e) := by
  apply le_rneAt_of_le
  rw [cast_two_pow_mul]
  have hb := two_zpow_le_val hm e
  have hq2 : ((f.prec - 1 : Nat) : Int) + f.quantum m e = (bitLen m : Int) - 1 + e := by
    unfold Fmt.quantum at hq ⊢
    omega
  rw [hq2]
  exact hb

theorem round_fin (f : Fmt) (s : Bool) (m : Nat) (e : Int) (hm : m ≠ 0) :
    (FP.fin s m e).round f =
      if (f.prec : Int) + f.qmax < (bitLen (rneAt m e (f.quantum m e)) : Int) + f.quantum m e
      then FP.inf s else FP.fin s (rneAt m e (f.quantum m e)) (f.quantum m e) := by
  simp [FP.round, hm]

theorem round_zero (f : Fmt) (s : Bool) (e : Int) :
    (FP.fin s 0 e).round f = FP.fin s 0 f.qmin := by
  simp [FP.round]

theorem LE0_zero_left (m : Nat) (e : Int) (y : FP)
    (hy : y = FP.inf false ∨ ∃ n d, y = FP.fin false n d) (hm : m = 0) :
    LE0 (FP.fin false m e) y := by
  subst hm
  rcases hy with rfl | ⟨n, d, rfl⟩
  · trivial
  · show ((0 : Nat) : ℚ) * (2 : ℚ) ^ e ≤ (n : ℚ) * (2 : ℚ) ^ d
    have := two_zpow_pos d
    have hn : (0 : ℚ) ≤ (n : ℚ) := Nat.cast_nonneg n
    simp only [Nat.cast_zero, zero_mul]
    positivity

theorem round_nonneg_shape (f : Fmt) (m : Nat) (e : Int) :
    (FP.fin false m e).round f = FP.inf false ∨
      ∃ n d, (FP.fin false m e).round f = FP.fin false n d := by
  by_cases hm : m = 0
  · subst hm
    exact Or.inr ⟨0, f.qmin, round_zero f false e⟩
  · rw [round_fin f false m e hm]
    split_ifs
    · exact Or.inl rfl
    · exact Or.inr ⟨_, _, rfl⟩

/-- Rounding to a format preserves the order of non-negative values. -/
theorem round_LE0 (f : Fmt) (hp : 1 ≤ f.prec) {x y : FP} (h : LE0 x y) :
    LE0 (x.round f) (y.round f) := by
  match x, y, h with
  | FP.inf false, FP.inf false, _ => trivial
  | FP.fin false m1 e1, FP.inf false, _ =>
    rcases round_nonneg_shape f m1 e1 with h1 | ⟨n, d, h1⟩
    · rw [h1]; trivial
    · rw [h1]; trivial
  | FP.fin false m1 e1, FP.fin false m2 e2, h =>
    have h : (m1 : ℚ) * (2 : ℚ) ^ e1 ≤ (m2 : ℚ) * (2 : ℚ) ^ e2 := h
    by_cases hm1 : m1 = 0
    · subst hm1
      rw [round_zero]
      exact LE0_zero_left 0 _ _ (round_nonneg_shape f m2 e2) rfl
    · have hm2 : m2 ≠ 0 := by
        intro h0
        subst h0
        have hpos : (0 : ℚ) < (m1 : ℚ) * (2 : ℚ) ^ e1 :=
          mul_pos (by exact_mod_cast Nat.pos_of_ne_zero hm1) (two_zpow_pos e1)
        simp at h
        linarith
      have hq := quantum_mono f hm1 h
      rw [round_fin f false m1 e1 hm1, round_fin f false m2 e2 hm2]
      generalize hq1 : f.quantum m1 e1 = q1 at *
      generalize hq2 : f.quantum m2 e2 = q2 at *
      rcases eq_or_lt_of_le hq with heq | hlt
      · subst heq
        have hmono : rneAt m1 e1 q1 ≤ rneAt m2 e2 q1 := rneAt_mono q1 h
        have hbl := bitLen_mono hmono
        by_cases ov2 : (f.prec : Int) + f.qmax < (bitLen (rneAt m2 e2 q1) : Int) + q1
        · rw [if_pos ov2]
          split_ifs <;> trivial
        · have ov1 : ¬ ((f.prec : Int) + f.qmax < (bitLen (rneAt m1 e1 q1) : Int) + q1) := by
            omega
          rw [if_neg ov2, if_neg ov1]
          show (rneAt m1 e1 q1 : ℚ) * (2 : ℚ) ^ q1 ≤ (rneAt m2 e2 q1 : ℚ) * (2 : ℚ) ^ q1
          apply mul_le_mul_of_nonneg_right _ (le_of_lt (two_zpow_pos q1))
          exact_mod_cast hmono
      · have hle1 : rneAt m1 e1 q1 ≤ 2 ^ f.prec := by
          rw [← hq1]; exact rneAt_quantum_le f m1 e1
        have hqmin : f.qmin ≤ q1 := by
          rw [← hq1]; unfold Fmt.quantum; omega
        have hge2 : 2 ^ (f.prec - 1) ≤ rneAt m2 e2 q2 := by
          rw [← hq2]
          apply le_rneAt_quantum f hm2 e2 hp
          rw [hq2]; omega
        have hb1 : bitLen (rneAt m1 e1 q1) ≤ f.prec + 1 := by
          rw [bitLen_le_iff]
          calc rneAt m1 e1 q1 ≤ 2 ^ f.prec := hle1
            _ < 2 ^ (f.prec + 1) := Nat.pow_lt_pow_right (by decide) (by omega)
        have hb2 : f.prec - 1 < bitLen (rneAt m2 e2 q2) := by
          rw [lt_bitLen_iff]; exact hge2
        by_cases ov2 : (f.prec : Int) + f.qmax < (bitLen (rneAt m2 e2 q2) : Int) + q2
        · rw [if_pos ov2]
          split_ifs <;> trivial
        · have ov1 : ¬ ((f.prec : Int) + f.qmax < (bitLen (rneAt m1 e1 q1) : Int) + q1) := by
            omega
          rw [if_neg ov2, if_neg ov1]
          show (rneAt m1 e1 q1 : ℚ) * (2 : ℚ) ^ q1 ≤ (rneAt m2 e2 q2 : ℚ) * (2 : ℚ) ^ q2
          have ha : (rneAt m1 e1 q1 : ℚ) * (2 : ℚ) ^ q1 ≤ ((2 ^ f.prec : Nat) : ℚ) * (2 : ℚ) ^ q1 := by
            apply mul_le_mul_of_nonneg_right _ (le_of_lt (two_zpow_pos q1))
            exact_mod_cast hle1
          have hb : ((2 ^ (f.prec - 1) : Nat) : ℚ) * (2 : ℚ) ^ q2 ≤ (rneAt m2 e2 q2 : ℚ) * (2 : ℚ) ^ q2 := by
            apply mul_le_mul_of_nonneg_right _ (le_of_lt (two_zpow_pos q2))
            exact_mod_cast hge2
          rw [cast_two_pow_mul] at ha hb
          have hexp : (f.prec : Int) + q1 ≤ ((f.prec - 1 : Nat) : Int) + q2 := by omega
          have hm := zpow_le_zpow_right₀ (by norm_num : (1 : ℚ) ≤ 2) hexp
          linarith

end Circle

namespace Circle

/-! ## The comparisons of C, in terms of rational values -/

/-- Sign factor of a finite datum. -/
theorem scaled_cast (s : Bool) (m : Nat) (e e0 : Int) (h : e0 ≤ e) :
    ((scaled s m e e0 : Int) : ℚ) * (2 : ℚ) ^ e0 = (if s then -1 else 1) * (m : ℚ) * (2 : ℚ) ^ e := by
  have hc := cast_scale m e e0 0 (by simpa using h)
  simp only [Nat.cast_zero, add_zero, zero_sub] at hc
  unfold scaled
  have hinv : (2 : ℚ) ^ (-e0) * (2 : ℚ) ^ e0 = 1 := by
    rw [← zpow_add₀ (by norm_num : (2 : ℚ) ≠ 0)]
    simp
  cases s
  · simp only [Bool.false_eq_true, if_false, one_mul]
    rw [Int.cast_natCast, hc, mul_assoc, hinv, mul_one]
  · simp only [if_true]
    rw [Int.cast_mul, Int.cast_natCast, hc]
    push_cast
    rw [mul_assoc, mul_assoc, hinv, mul_one]
    ring

theorem le_fin_iff (s t : Bool) (m n : Nat) (e d : Int) :
    FP.le (FP.fin s m e) (FP.fin t n d) = true ↔
      (FP.fin s m e).toRat ≤ (FP.fin t n d).toRat := by
  have h1 := scaled_cast s m e (min e d) (min_le_left e d)
  have h2 := scaled_cast t n d (min e d) (min_le_right e d)
  have hpos := two_zpow_pos (min e d)
  simp only [FP.le, decide_eq_true_eq, FP.toRat]
  rw [← h1, ← h2]
  constructor
  · intro h
    apply mul_le_mul_of_nonneg_right _ (le_of_lt hpos)
    exact_mod_cast h
  · intro h
    have := le_of_mul_le_mul_right h hpos
    exact_mod_cast this

theorem lt_fin_iff (s t : Bool) (m n : Nat) (e d : Int) :
    FP.lt (FP.fin s m e) (FP.fin t n d) = true ↔
      (FP.fin s m e).toRat < (FP.fin t n d).toRat := by
  have h1 := scaled_cast s m e (min e d) (min_le_left e d)
  have h2 := scaled_cast t n d (min e d) (min_le_right e d)
  have hpos := two_zpow_pos (min e d)
  simp only [FP.lt, decide_eq_true_eq, FP.toRat]
  rw [← h1, ← h2]
  constructor
  · intro h
    apply mul_lt_mul_of_pos_right _ hpos
    exact_mod_cast h
  · intro h
    have := lt_of_mul_lt_mul_right h (le_of_lt hpos)
    exact_mod_cast this

theorem toRat_ofInt_zero : (FP.ofInt 0).toRat = 0 := by
  simp [FP.ofInt, FP.toRat]

theorem val_pos {m : Nat} (hm : m ≠ 0) (e : Int) : (0 : ℚ) < (m : ℚ) * (2 : ℚ) ^ e :=
  mul_pos (by exact_mod_cast Nat.pos_of_ne_zero hm) (two_zpow_pos e)

theorem val_nonneg (m : Nat) (e : Int) : (0 : ℚ) ≤ (m : ℚ) * (2 : ℚ) ^ e :=
  mul_nonneg (Nat.cast_nonneg m) (le_of_lt (two_zpow_pos e))

/-- `radius < 0` holds of a finite value exactly when it is negative and not a zero. -/
theorem lt_zero_fin_iff (s : Bool) (m : Nat) (e : Int) :
    FP.lt (FP.fin s m e) (FP.ofInt 0) = true ↔ (s = true ∧ m ≠ 0) := by
  have h := lt_fin_iff s false m 0 e 0
  have hz : (FP.fin false 0 0).toRat = 0 := by simp [FP.toRat]
  have h0 : FP.ofInt 0 = FP.fin false 0 0 := by decide
  rw [h0, h, hz]
  simp only [FP.toRat]
  constructor
  · intro hlt
    cases s
    · have := val_nonneg m e
      simp only [Bool.false_eq_true, if_false, one_mul] at hlt
      linarith
    · refine ⟨rfl, ?_⟩
      intro hm
      subst hm
      simp at hlt
  · rintro ⟨hs, hm⟩
    subst hs
    have := val_pos hm e
    simp only [if_true]
    linarith

/-- `0 <= radius` holds of a finite value exactly when it is positive or a zero. -/
theorem zero_le_fin_iff (s : Bool) (m : Nat) (e : Int) :
    FP.le (FP.ofInt 0) (FP.fin s m e) = true ↔ (s = false ∨ m = 0) := by
  have h := le_fin_iff false s 0 m 0 e
  have hz : (FP.fin false 0 0).toRat = 0 := by simp [FP.toRat]
  have h0 : FP.ofInt 0 = FP.fin false 0 0 := by decide
  rw [h0, h, hz]
  simp only [FP.toRat]
  constructor
  · intro hle
    cases s
    · exact Or.inl rfl
    · right
      by_contra hm
      have := val_pos hm e
      simp only [if_true] at hle
      linarith
  · rintro (hs | hm)
    · subst hs
      have := val_nonneg m e
      simp only [Bool.false_eq_true, if_false, one_mul]
      linarith
    · subst hm
      simp

/-- On the non-negative data the order by value is the comparison `<=` of C. -/
theorem le_of_LE0 {x y : FP} (h : LE0 x y) : FP.le x y = true := by
  match x, y, h with
  | FP.inf false, FP.inf false, _ => rfl
  | FP.fin false _ _, FP.inf false, _ => rfl
  | FP.fin false m e, FP.fin false n d, h =>
    rw [le_fin_iff]
    simpa [FP.toRat] using h

end Circle

namespace Circle

/-! ## The computed area is monotone -/

theorem mul_LE0 {X Y : FP} {m n : Nat} {e d : Int} (hX : LE0 X Y) (hm : m ≠ 0) (hn : n ≠ 0)
    (h : (m : ℚ) * (2 : ℚ) ^ e ≤ (n : ℚ) * (2 : ℚ) ^ d) :
    LE0 (FP.mulExact X (FP.fin false m e)) (FP.mulExact Y (FP.fin false n d)) := by
  match X, Y, hX with
  | FP.inf false, FP.inf false, _ =>
    simp only [FP.mulExact, if_neg hm, if_neg hn]
    trivial
  | FP.fin false a b, FP.inf false, _ =>
    simp only [FP.mulExact, if_neg hn]
    trivial
  | FP.fin false a b, FP.fin false a' b', hX =>
    have hX : (a : ℚ) * (2 : ℚ) ^ b ≤ (a' : ℚ) * (2 : ℚ) ^ b' := hX
    show ((a * m : Nat) : ℚ) * (2 : ℚ) ^ (b + e) ≤ ((a' * n : Nat) : ℚ) * (2 : ℚ) ^ (b' + d)
    rw [zpow_add₀ (by norm_num : (2 : ℚ) ≠ 0), zpow_add₀ (by norm_num : (2 : ℚ) ≠ 0)]
    push_cast
    have hmul := mul_le_mul hX h (val_nonneg m e) (val_nonneg a' b')
    calc (a : ℚ) * (m : ℚ) * ((2 : ℚ) ^ b * (2 : ℚ) ^ e)
        = (a : ℚ) * (2 : ℚ) ^ b * ((m : ℚ) * (2 : ℚ) ^ e) := by ring
      _ ≤ (a' : ℚ) * (2 : ℚ) ^ b' * ((n : ℚ) * (2 : ℚ) ^ d) := hmul
      _ = (a' : ℚ) * (n : ℚ) * ((2 : ℚ) ^ b' * (2 : ℚ) ^ d) := by ring

theorem areaOf_inf : areaOf (FP.inf false) = FP.inf false := by decide

theorem areaOf_zero (s : Bool) (e : Int) : areaOf (FP.fin s 0 e) = FP.fin false 0 (-149) := by
  cases s <;>
    simp [areaOf, FP.mul64, FP.mulExact, lit_3_14159, round_zero, binary64, binary32]

/-- The computed area preserves the order of positive finite radii. -/
theorem areaOf_LE0 {m n : Nat} {e d : Int} (hm : m ≠ 0) (hn : n ≠ 0)
    (h : (m : ℚ) * (2 : ℚ) ^ e ≤ (n : ℚ) * (2 : ℚ) ^ d) :
    LE0 (areaOf (FP.fin false m e)) (areaOf (FP.fin false n d)) := by
  unfold areaOf FP.mul64
  apply round_LE0 binary32 (by decide)
  apply round_LE0 binary64 (by decide)
  apply mul_LE0 _ hm hn h
  apply round_LE0 binary64 (by decide)
  exact mul_LE0 (X := lit_3_14159) (Y := lit_3_14159)
    (by unfold lit_3_14159; exact le_refl _) hm hn h

theorem LE0_left_shape {x y : FP} (h : LE0 x y) :
    x = FP.inf false ∨ ∃ n d, x = FP.fin false n d := by
  match x, y, h with
  | FP.inf false, FP.inf false, _ => exact Or.inl rfl
  | FP.fin false m e, FP.inf false, _ => exact Or.inr ⟨m, e, rfl⟩
  | FP.fin false m e, FP.fin false _ _, _ => exact Or.inr ⟨m, e, rfl⟩

/-- The area computed from a non-negative finite radius is never negative and never a NaN. -/
theorem areaOf_shape (m : Nat) (e : Int) :
    areaOf (FP.fin false m e) = FP.inf false ∨ ∃ n d, areaOf (FP.fin false m e) = FP.fin false n d := by
  by_cases hm : m = 0
  · subst hm
    exact Or.inr ⟨0, -149, areaOf_zero false e⟩
  · exact LE0_left_shape (areaOf_LE0 hm hm (le_refl _))

theorem le_inf_of_shape {x : FP} (h : x = FP.inf false ∨ ∃ n d, x = FP.fin false n d) :
    FP.le x (FP.inf false) = true := by
  rcases h with rfl | ⟨n, d, rfl⟩ <;> rfl

/-- Monotonicity of `areaOf` with respect to the comparison `<=` of C, from zero upwards. -/
theorem areaOf_mono (x y : FP) (h0 : FP.le (FP.ofInt 0) x = true) (hxy : FP.le x y = true) :
    FP.le (areaOf x) (areaOf y) = true := by
  cases x with
  | nan s => simp [FP.le, FP.ofInt] at h0
  | inf s =>
    cases s
    · cases y with
      | nan t => simp [FP.le] at hxy
      | inf t =>
        cases t
        · rw [areaOf_inf]; rfl
        · simp [FP.le] at hxy
      | fin t n d => simp [FP.le] at hxy
    · simp [FP.le, FP.ofInt] at h0
  | fin s m e =>
    rw [zero_le_fin_iff] at h0
    cases y with
    | nan t => simp [FP.le] at hxy
    | inf t =>
      cases t
      · rw [areaOf_inf]
        by_cases hm : m = 0
        · subst hm
          rw [areaOf_zero]; rfl
        · have hs : s = false := by tauto
          subst hs
          exact le_inf_of_shape (areaOf_shape m e)
      · simp [FP.le] at hxy
    | fin t n d =>
      rw [le_fin_iff] at hxy
      simp only [FP.toRat] at hxy
      by_cases hm : m = 0
      · subst hm
        rw [areaOf_zero]
        by_cases hn : n = 0
        · subst hn
          rw [areaOf_zero]
          rw [le_fin_iff]
        · have ht : t = false := by
            cases t
            · rfl
            · have := val_pos hn d
              simp only [Nat.cast_zero, mul_zero, zero_mul, if_true] at hxy
              linarith
          subst ht
          exact le_of_LE0 (LE0_zero_left 0 _ _ (areaOf_shape n d) rfl)
      · have hs : s = false := by tauto
        subst hs
        have hpos := val_pos hm e
        simp only [Bool.false_eq_true, if_false, one_mul] at hxy
        have ht : t = false := by
          cases t
          · rfl
          · have := val_nonneg n d
            simp only [if_true] at hxy
            linarith
        subst ht
        simp only [Bool.false_eq_true, if_false, one_mul] at hxy
        have hn : n ≠ 0 := by
          intro hn
          subst hn
          simp at hxy
          linarith
        exact le_of_LE0 (areaOf_LE0 hm hn hxy)

end Circle

namespace Circle

/-! ## Rounding to a format: overflow and error -/

/-- Below the overflow threshold (the largest finite number plus half a quantum) the result
of rounding is finite. -/
theorem round_finite (f : Fmt) (hq : f.qmin ≤ f.qmax) (s : Bool) {m : Nat} (hm : m ≠ 0) (e : Int)
    (hx : 2 * ((m : ℚ) * (2 : ℚ) ^ e) < (2 * ((2 ^ f.prec - 1 : Nat) : ℚ) + 1) * (2 : ℚ) ^ f.qmax) :
    (FP.fin s m e).round f = FP.fin s (rneAt m e (f.quantum m e)) (f.quantum m e) := by
  rw [round_fin f s m e hm]
  have hP : 1 ≤ 2 ^ f.prec := Nat.one_le_two_pow
  have hcast : ((2 ^ f.prec - 1 : Nat) : ℚ) = (2 : ℚ) ^ f.prec - 1 := by
    rw [Nat.cast_sub hP]
    push_cast
    rfl
  have hle := rneAt_quantum_le f m e
  have hqmax : f.quantum m e ≤ f.qmax := by
    by_contra hc
    have hE : (f.prec : Int) + f.qmax ≤ (bitLen m : Int) - 1 + e := by
      unfold Fmt.quantum at hc
      omega
    have h1 := two_zpow_le_val hm e
    have h2 := zpow_le_zpow_right₀ (by norm_num : (1 : ℚ) ≤ 2) hE
    rw [zpow_add₀ (by norm_num : (2 : ℚ) ≠ 0), zpow_natCast] at h2
    rw [hcast] at hx
    have hpos := two_zpow_pos f.qmax
    nlinarith
  rw [if_neg]
  rcases eq_or_lt_of_le hqmax with heq | hlt
  · have hmid : rneAt m e (f.quantum m e) ≤ 2 ^ f.prec - 1 := by
      apply rneAt_le_of_lt_mid
      rw [heq]
      exact hx
    have hb : bitLen (rneAt m e (f.quantum m e)) ≤ f.prec := by
      rw [bitLen_le_iff]
      omega
    omega
  · have hb : bitLen (rneAt m e (f.quantum m e)) ≤ f.prec + 1 := by
      rw [bitLen_le_iff]
      calc rneAt m e (f.quantum m e) ≤ 2 ^ f.prec := hle
        _ < 2 ^ (f.prec + 1) := Nat.pow_lt_pow_right (by decide) (by omega)
    omega

/-- Rounding at the quantum of a value: the error is at most the relative `2^-prec`, plus half
the smallest quantum in the subnormal range. -/
theorem quantum_err (f : Fmt) {m : Nat} (hm : m ≠ 0) (e : Int) :
    |(rneAt m e (f.quantum m e) : ℚ) * (2 : ℚ) ^ (f.quantum m e) - (m : ℚ) * (2 : ℚ) ^ e|
      ≤ (m : ℚ) * (2 : ℚ) ^ e / (2 : ℚ) ^ f.prec + (2 : ℚ) ^ f.qmin / 2 := by
  refine le_trans (rneAt_err m e _) ?_
  have hx := val_nonneg m e
  have hP : (0 : ℚ) < (2 : ℚ) ^ f.prec := by positivity
  have hmin := two_zpow_pos f.qmin
  have h1 : (0 : ℚ) ≤ (m : ℚ) * (2 : ℚ) ^ e / (2 : ℚ) ^ f.prec := div_nonneg hx (le_of_lt hP)
  rcases le_total (e + (bitLen m : Int) - (f.prec : Int)) f.qmin with hc | hc
  · have hq : f.quantum m e = f.qmin := by
      unfold Fmt.quantum
      exact max_eq_right hc
    rw [hq]
    linarith
  · have hq : f.quantum m e = e + (bitLen m : Int) - (f.prec : Int) := by
      unfold Fmt.quantum
      exact max_eq_left hc
    rw [hq]
    have hb := two_zpow_le_val hm e
    have hsplit : (2 : ℚ) ^ (e + (bitLen m : Int) - (f.prec : Int)) / 2
        = (2 : ℚ) ^ ((bitLen m : Int) - 1 + e) / (2 : ℚ) ^ f.prec := by
      rw [eq_div_iff (ne_of_gt hP), div_mul_eq_mul_div, eq_comm, eq_div_iff (by norm_num),
        ← zpow_natCast (2 : ℚ) f.prec, ← zpow_add₀ (by norm_num : (2 : ℚ) ≠ 0)]
      have h2 : (2 : ℚ) ^ ((bitLen m : Int) - 1 + e) * 2
          = (2 : ℚ) ^ ((bitLen m : Int) - 1 + e + 1) := by
        rw [zpow_add₀ (by norm_num : (2 : ℚ) ≠ 0) _ 1, zpow_one]
      rw [h2]
      congr 1
      ring
    rw [hsplit]
    have := div_le_div_of_nonneg_right hb (le_of_lt hP)
    linarith

end Circle

namespace Circle

/-! ## Accuracy of the computed area -/

theorem step_rel (X Y c a b L : ℚ) (h : |X - Y| ≤ Y * a + c) (hL : L ≤ Y)
    (hc : c ≤ L * (b - a)) (hab : a ≤ b) : Y * (1 - b) ≤ X ∧ X ≤ Y * (1 + b) := by
  have h1 : L * (b - a) ≤ Y * (b - a) := mul_le_mul_of_nonneg_right hL (by linarith)
  rw [abs_le] at h
  constructor <;> nlinarith [h.1, h.2]

/-- The finite values of a `float`: 24 bits of significand, quantum from `2^-149` to `2^104`. -/
theorem toFP_fin_bounds (x : F32) (s : Bool) (m : Nat) (e : Int) (h : x.toFP = FP.fin s m e) :
    m < 2 ^ 24 ∧ -149 ≤ e ∧ e ≤ 104 := by
  have h1 := x.expo.isLt
  have h2 := x.frac.isLt
  unfold F32.toFP at h
  split_ifs at h with ha hb hc
  · injection h with _ hm he
    omega
  · injection h with _ hm he
    omega

theorem cast_mul_val (a m : Nat) (b e : Int) :
    ((a * m : Nat) : ℚ) * (2 : ℚ) ^ (b + e) = ((a : ℚ) * (2 : ℚ) ^ b) * ((m : ℚ) * (2 : ℚ) ^ e) := by
  rw [zpow_add₀ (by norm_num : (2 : ℚ) ≠ 0)]
  push_cast
  ring

theorem ne_zero_of_val_pos {n : Nat} {q : Int} (h : (0 : ℚ) < (n : ℚ) * (2 : ℚ) ^ q) : n ≠ 0 := by
  intro h0
  subst h0
  simp at h

theorem sandwich_trans {X Y Z l1 u1 l2 u2 : ℚ} (h1 : Y * l1 ≤ X ∧ X ≤ Y * u1)
    (h2 : Z * l2 ≤ Y ∧ Y ≤ Z * u2) (hl1 : 0 ≤ l1) (hu1 : 0 ≤ u1) :
    Z * (l2 * l1) ≤ X ∧ X ≤ Z * (u2 * u1) := by
  have ha := mul_le_mul_of_nonneg_right h2.1 hl1
  have hb := mul_le_mul_of_nonneg_right h2.2 hu1
  constructor
  · calc Z * (l2 * l1) = Z * l2 * l1 := by ring
      _ ≤ Y * l1 := ha
      _ ≤ X := h1.1
  · calc X ≤ Y * u1 := h1.2
      _ ≤ Z * u2 * u1 := hb
      _ = Z * (u2 * u1) := by ring

theorem sandwich_scale {Y Z l u ρ : ℚ} (h : Z * l ≤ Y ∧ Y ≤ Z * u) (hρ : 0 ≤ ρ) :
    Z * ρ * l ≤ Y * ρ ∧ Y * ρ ≤ Z * ρ * u := by
  have ha := mul_le_mul_of_nonneg_right h.1 hρ
  have hb := mul_le_mul_of_nonneg_right h.2 hρ
  constructor
  · calc Z * ρ * l = Z * l * ρ := by ring
      _ ≤ Y * ρ := ha
  · calc Y * ρ ≤ Z * u * ρ := hb
      _ = Z * ρ * u := by ring

/-- For a positive finite radius whose exact area `3.14159 * r^2` lies in the normal range of
`float`, the computed area is finite and within the relative distance `10^-4` of it. -/
theorem areaOf_err {m : Nat} {e : Int} (hm : m ≠ 0) (hm24 : m < 2 ^ 24) (he1 : -149 ≤ e)
    (he2 : e ≤ 104)
    (hlo : (2 : ℚ) ^ (-126 : Int) ≤ 314159 / 100000 * ((m : ℚ) * (2 : ℚ) ^ e) ^ 2)
    (hhi : 314159 / 100000 * ((m : ℚ) * (2 : ℚ) ^ e) ^ 2 ≤ (2 ^ 24 - 1) * 2 ^ 104) :
    ∃ n d, areaOf (FP.fin false m e) = FP.fin false n d ∧
      |(n : ℚ) * (2 : ℚ) ^ d - 314159 / 100000 * ((m : ℚ) * (2 : ℚ) ^ e) ^ 2|
        ≤ 314159 / 100000 * ((m : ℚ) * (2 : ℚ) ^ e) ^ 2 / 10000 := by
  -- bounds on the radius
  have hρ_lo : (2 : ℚ) ^ (-149 : Int) ≤ (m : ℚ) * (2 : ℚ) ^ e := by
    have h1 : (1 : ℚ) ≤ (m : ℚ) := by exact_mod_cast Nat.pos_of_ne_zero hm
    have h2 := zpow_le_zpow_right₀ (by norm_num : (1 : ℚ) ≤ 2) he1
    have := mul_le_mul h1 h2 (le_of_lt (two_zpow_pos _)) (by linarith)
    linarith
  have hρ_hi : (m : ℚ) * (2 : ℚ) ^ e ≤ (2 : ℚ) ^ (128 : Int) := by
    have h1 : (m : ℚ) ≤ (2 : ℚ) ^ (24 : Int) := by
      have : (m : ℚ) < ((2 ^ 24 : Nat) : ℚ) := by exact_mod_cast hm24
      norm_num at this ⊢
      linarith
    have h2 := zpow_le_zpow_right₀ (by norm_num : (1 : ℚ) ≤ 2) he2
    have := mul_le_mul h1 h2 (le_of_lt (two_zpow_pos _)) (by positivity)
    calc (m : ℚ) * (2 : ℚ) ^ e ≤ (2 : ℚ) ^ (24 : Int) * (2 : ℚ) ^ (104 : Int) := this
      _ = (2 : ℚ) ^ (128 : Int) := by norm_num
  generalize hρ : (m : ℚ) * (2 : ℚ) ^ e = ρ at *
  have hρ0 : (0 : ℚ) < ρ := lt_of_lt_of_le (two_zpow_pos _) hρ_lo
  -- first product, rounded to double
  have hM0 : 3537115888337719 * m ≠ 0 := by omega
  have hx0 : ((3537115888337719 * m : Nat) : ℚ) * (2 : ℚ) ^ (-50 + e)
      = ((3537115888337719 : Nat) : ℚ) * (2 : ℚ) ^ (-50 : Int) * ρ := by
    rw [cast_mul_val, hρ]
  have hx0_lo : 314159 / 100000 * ρ * (1 - 1 / 2 ^ 50)
      ≤ ((3537115888337719 * m : Nat) : ℚ) * (2 : ℚ) ^ (-50 + e) := by
    rw [hx0]
    have : (314159 / 100000 * (1 - 1 / 2 ^ 50) : ℚ)
        ≤ ((3537115888337719 : Nat) : ℚ) * (2 : ℚ) ^ (-50 : Int) := by norm_num
    nlinarith
  have hx0_hi : ((3537115888337719 * m : Nat) : ℚ) * (2 : ℚ) ^ (-50 + e)
      ≤ 314159 / 100000 * ρ * (1 + 1 / 2 ^ 50) := by
    rw [hx0]
    have : ((3537115888337719 : Nat) : ℚ) * (2 : ℚ) ^ (-50 : Int)
        ≤ (314159 / 100000 * (1 + 1 / 2 ^ 50) : ℚ) := by norm_num
    nlinarith
  generalize hx0def : ((3537115888337719 * m : Nat) : ℚ) * (2 : ℚ) ^ (-50 + e) = x0 at *
  have hr1 := round_finite binary64 (by decide) false hM0 (-50 + e) (by
    rw [hx0def]
    simp only [binary64]
    norm_num at hρ_hi ⊢
    nlinarith)
  have herr1 := quantum_err binary64 hM0 (-50 + e)
  rw [hx0def] at herr1
  generalize binary64.quantum (3537115888337719 * m) (-50 + e) = q1 at *
  generalize rneAt (3537115888337719 * m) (-50 + e) q1 = n1 at *
  have hX1 := step_rel ((n1 : ℚ) * (2 : ℚ) ^ q1) x0 (1 / 2 ^ 1075) (1 / 2 ^ 53) (1 / 2 ^ 50)
    ((2 : ℚ) ^ (-149 : Int))
    (by
      simp only [binary64] at herr1
      norm_num at herr1 ⊢
      linarith)
    (by
      norm_num at hρ_lo ⊢
      nlinarith)
    (by norm_num) (by norm_num)
  -- the first rounded product is positive and close to `3.14159 * r`
  have hB1 : 314159 / 100000 * ρ * ((1 - 1 / 2 ^ 50) * (1 - 1 / 2 ^ 50)) ≤ (n1 : ℚ) * (2 : ℚ) ^ q1
      ∧ (n1 : ℚ) * (2 : ℚ) ^ q1 ≤ 314159 / 100000 * ρ * ((1 + 1 / 2 ^ 50) * (1 + 1 / 2 ^ 50)) :=
    sandwich_trans hX1 ⟨hx0_lo, hx0_hi⟩ (by norm_num) (by norm_num)
  have hn1 : n1 ≠ 0 := by
    apply ne_zero_of_val_pos (q := q1)
    have : (0 : ℚ) < 314159 / 100000 * ρ * ((1 - 1 / 2 ^ 50) * (1 - 1 / 2 ^ 50)) := by
      have : (0 : ℚ) < (1 - 1 / 2 ^ 50) * (1 - 1 / 2 ^ 50) := by norm_num
      positivity
    linarith [hB1.1]
  -- second product, rounded to double
  have hM1 : n1 * m ≠ 0 := Nat.mul_ne_zero hn1 hm
  have hy0 : ((n1 * m : Nat) : ℚ) * (2 : ℚ) ^ (q1 + e) = (n1 : ℚ) * (2 : ℚ) ^ q1 * ρ := by
    rw [cast_mul_val, hρ]
  have hA : (314159 / 100000 * ρ * ρ : ℚ) = 314159 / 100000 * ρ ^ 2 := by ring
  have hB2 := sandwich_scale hB1 (le_of_lt hρ0)
  rw [← hy0, hA] at hB2
  generalize hAdef : (314159 / 100000 * ρ ^ 2 : ℚ) = A at *
  generalize hy0def : ((n1 * m : Nat) : ℚ) * (2 : ℚ) ^ (q1 + e) = y0 at *
  have hr2 := round_finite binary64 (by decide) false hM1 (q1 + e) (by
    rw [hy0def]
    simp only [binary64]
    have := hB2.2
    norm_num at this hhi ⊢
    linarith)
  have herr2 := quantum_err binary64 hM1 (q1 + e)
  rw [hy0def] at herr2
  generalize binary64.quantum (n1 * m) (q1 + e) = q2 at *
  generalize rneAt (n1 * m) (q1 + e) q2 = n2 at *
  have hy0_lo : (2 : ℚ) ^ (-127 : Int) ≤ y0 := by
    have := hB2.1
    norm_num at this hlo ⊢
    linarith
  have hX2 := step_rel ((n2 : ℚ) * (2 : ℚ) ^ q2) y0 (1 / 2 ^ 1075) (1 / 2 ^ 53) (1 / 2 ^ 50)
    ((2 : ℚ) ^ (-127 : Int))
    (by
      simp only [binary64] at herr2
      norm_num at herr2 ⊢
      linarith)
    hy0_lo (by norm_num) (by norm_num)
  have hB3 := sandwich_trans hX2 hB2 (by norm_num) (by norm_num)
  generalize hX2def : (n2 : ℚ) * (2 : ℚ) ^ q2 = X2 at *
  have hX2_lo : (2 : ℚ) ^ (-127 : Int) ≤ X2 := by
    have := hB3.1
    norm_num at this hlo ⊢
    linarith
  have hn2 : n2 ≠ 0 := by
    apply ne_zero_of_val_pos (q := q2)
    rw [hX2def]
    exact lt_of_lt_of_le (two_zpow_pos _) hX2_lo
  -- narrowing to float
  have hr3 := round_finite binary32 (by decide) false hn2 q2 (by
    rw [hX2def]
    simp only [binary32]
    have := hB3.2
    norm_num at this hhi ⊢
    linarith)
  have herr3 := quantum_err binary32 hn2 q2
  rw [hX2def] at herr3
  generalize binary32.quantum n2 q2 = q3 at *
  generalize rneAt n2 q2 q3 = n3 at *
  have hX3 := step_rel ((n3 : ℚ) * (2 : ℚ) ^ q3) X2 (1 / 2 ^ 150) (1 / 2 ^ 24) (1 / 2 ^ 22)
    ((2 : ℚ) ^ (-127 : Int))
    (by
      simp only [binary32] at herr3
      norm_num at herr3 ⊢
      linarith)
    hX2_lo (by norm_num) (by norm_num)
  have hB4 := sandwich_trans hX3 hB3 (by norm_num) (by norm_num)
  have hA0 : (0 : ℚ) ≤ A := by
    rw [← hAdef]
    positivity
  refine ⟨n3, q3, ?_, ?_⟩
  · have hmul1 : FP.mulExact lit_3_14159 (FP.fin false m e)
        = FP.fin false (3537115888337719 * m) (-50 + e) := rfl
    have hmul2 : FP.mulExact (FP.fin false n1 q1) (FP.fin false m e)
        = FP.fin false (n1 * m) (q1 + e) := rfl
    unfold areaOf FP.mul64
    rw [hmul1, hr1, hmul2, hr2, hr3]
  · rw [abs_le]
    have h1 := hB4.1
    have h2 := hB4.2
    norm_num at h1 h2
    constructor <;> linarith

end Circle

namespace Circle

/-! ## Decimal output -/

theorem digitChar_isDigit (d : Nat) : (digitChar d).isDigit = true := by
  unfold digitChar
  have h : d % 10 < 10 := Nat.mod_lt _ (by decide)
  generalize d % 10 = r at h
  interval_cases r <;> decide

theorem digitChar_val (d : Nat) : (digitChar d).toNat - 48 = d % 10 := by
  unfold digitChar
  have h : d % 10 < 10 := Nat.mod_lt _ (by decide)
  generalize d % 10 = r at h
  interval_cases r <;> decide

theorem decVal_snoc (l : List Char) (c : Char) :
    decVal (l ++ [c]) = 10 * decVal l + (c.toNat - 48) := by
  simp [decVal, List.foldl_append]

theorem fixDec_length (w n : Nat) : (fixDec w n).length = w := by
  induction w generalizing n with
  | zero => rfl
  | succ w ih => simp [fixDec, ih]

theorem fixDec_isDigit (w n : Nat) : ∀ c ∈ fixDec w n, c.isDigit = true := by
  induction w generalizing n with
  | zero => simp [fixDec]
  | succ w ih =>
    intro c hc
    simp only [fixDec, List.mem_append, List.mem_singleton] at hc
    rcases hc with hc | hc
    · exact ih _ c hc
    · rw [hc]; exact digitChar_isDigit n

theorem decVal_fixDec (w n : Nat) : decVal (fixDec w n) = n % 10 ^ w := by
  induction w generalizing n with
  | zero => simp [fixDec, decVal, Nat.mod_one]
  | succ w ih =>
    simp only [fixDec]
    rw [decVal_snoc, ih, digitChar_val, pow_succ, mul_comm (10 ^ w) 10, Nat.mod_mul]
    omega

theorem natDecAux_ne_nil (fuel n : Nat) : natDecAux (fuel + 1) n ≠ [] := by
  simp [natDecAux]

theorem natDecAux_isDigit (fuel n : Nat) : ∀ c ∈ natDecAux fuel n, c.isDigit = true := by
  induction fuel generalizing n with
  | zero => simp [natDecAux]
  | succ fuel ih =>
    intro c hc
    simp only [natDecAux, List.mem_append, List.mem_singleton] at hc
    rcases hc with hc | hc
    · split_ifs at hc
      · simp at hc
      · exact ih _ c hc
    · rw [hc]; exact digitChar_isDigit n

theorem decVal_natDecAux (fuel n : Nat) (h : n < fuel) : decVal (natDecAux fuel n) = n := by
  induction fuel generalizing n with
  | zero => omega
  | succ fuel ih =>
    simp only [natDecAux]
    rw [decVal_snoc, digitChar_val]
    by_cases h0 : n / 10 = 0
    · rw [if_pos h0]
      simp only [decVal, List.foldl_nil]
      omega
    · rw [if_neg h0, ih (n / 10) (by omega)]
      omega

theorem natDec_ne_nil (n : Nat) : natDec n ≠ [] := natDecAux_ne_nil n n

theorem natDec_isDigit (n : Nat) : ∀ c ∈ natDec n, c.isDigit = true := natDecAux_isDigit _ n

theorem decVal_natDec (n : Nat) : decVal (natDec n) = n := decVal_natDecAux _ n (by omega)

end Circle

namespace Circle

/-! ## The two programs -/

theorem not_lt_zero_of_zero_le {x : FP} (h : FP.le (FP.ofInt 0) x = true) :
    FP.lt x (FP.ofInt 0) = false := by
  cases x with
  | nan s => simp [FP.le, FP.ofInt] at h
  | inf s =>
    cases s
    · rfl
    · simp [FP.le, FP.ofInt] at h
  | fin s m e =>
    rw [zero_le_fin_iff] at h
    rw [Bool.eq_false_iff]
    intro hlt
    rw [lt_zero_fin_iff] at hlt
    rcases h with h | h
    · rw [h] at hlt
      exact absurd hlt.1 (by decide)
    · exact hlt.2 h

/-- The area computed from an accepted radius is `+inf` or a non-negative finite number. -/
theorem area_shape (radius : F32) (h : FP.le (FP.ofInt 0) radius.toFP = true) :
    area radius = FP.inf false ∨ ∃ n d, area radius = FP.fin false n d := by
  unfold area
  cases hx : radius.toFP with
  | nan s => rw [hx] at h; simp [FP.le, FP.ofInt] at h
  | inf s =>
    rw [hx] at h
    cases s
    · exact Or.inl areaOf_inf
    · simp [FP.le, FP.ofInt] at h
  | fin s m e =>
    rw [hx, zero_le_fin_iff] at h
    by_cases hm : m = 0
    · subst hm
      exact Or.inr ⟨0, -149, areaOf_zero s e⟩
    · have hs : s = false := by tauto
      subst hs
      exact areaOf_shape m e

theorem example_main_neg (radius garbage : F32) (h : FP.lt radius.toFP (FP.ofInt 0) = true) :
    ExampleCircle.main ⟨some radius, garbage⟩ =
      ⟨[Event.out "Enter radius of circle: ", Event.scan,
        Event.err "Negative radius values are not allowed.\n"], 1⟩ := by
  simp [ExampleCircle.main, Env.radius, h]

theorem example_main_ok (radius garbage : F32) (h : FP.lt radius.toFP (FP.ofInt 0) = false) :
    ExampleCircle.main ⟨some radius, garbage⟩ =
      ⟨[Event.out "Enter radius of circle: ", Event.scan,
        Event.out ("Area: " ++ fmt_f (area radius) ++ "\n")], 0⟩ := by
  simp [ExampleCircle.main, Env.radius, h]

theorem demo_main_neg (radius garbage : F32) (h : FP.lt radius.toFP (FP.ofInt 0) = true) :
    DemoCircle.main ⟨some radius, garbage⟩ =
      ⟨[Event.out "Enter radiu of circle: ", Event.scan,
        Event.err "Negative radius values are not allowed.\n"], 1⟩ := by
  simp [DemoCircle.main, Env.radius, h]

theorem demo_main_ok (radius garbage : F32) (h : FP.lt radius.toFP (FP.ofInt 0) = false) :
    DemoCircle.main ⟨some radius, garbage⟩ =
      ⟨[Event.out "Enter radiu of circle: ", Event.scan,
        Event.out ("Area: " ++ fmt_f (area radius) ++ "\n")], 0⟩ := by
  simp [DemoCircle.main, Env.radius, h]

/-- The constant of the program is the `double` nearest to 3.14159: it has at most 53
significant bits and lies within half a unit in the last place (`2^-52`) of the decimal. -/
theorem lit_3_14159_nearest :
    lit_3_14159 = FP.fin false 3537115888337719 (-50) ∧ 3537115888337719 < 2 ^ 53 ∧
      |lit_3_14159.toRat - 314159 / 100000| < (2 : ℚ) ^ (-52 : Int) := by
  refine ⟨rfl, by norm_num, ?_⟩
  simp only [lit_3_14159, FP.toRat]
  rw [abs_lt]
  constructor <;> norm_num

/-- Text of `%f` for a non-negative finite number: decimal digits, a point, and six decimal
digits, denoting the nearest multiple of `10^-6`. -/
theorem fmt_f_fixed (n : Nat) (d : Int) :
    ∃ ip fp : List Char, fmt_f (FP.fin false n d) = String.mk ip ++ "." ++ String.mk fp ∧
      ip ≠ [] ∧ (∀ c ∈ ip, c.isDigit = true) ∧ fp.length = 6 ∧ (∀ c ∈ fp, c.isDigit = true) ∧
      |(decVal ip : ℚ) + (decVal fp : ℚ) / 10 ^ 6 - (FP.fin false n d).toRat|
        ≤ 1 / (2 * 10 ^ 6) := by
  refine ⟨natDec (rneAt (n * 1000000) d 0 / 1000000), fixDec 6 (rneAt (n * 1000000) d 0 % 1000000),
    ?_, natDec_ne_nil _, natDec_isDigit _, fixDec_length _ _, fixDec_isDigit _ _, ?_⟩
  · simp [fmt_f]
  · rw [decVal_natDec, decVal_fixDec]
    have herr := rneAt_err (n * 1000000) d 0
    generalize rneAt (n * 1000000) d 0 = N at *
    have hmod : N % 1000000 % 10 ^ 6 = N % 1000000 := by
      apply Nat.mod_eq_of_lt
      exact Nat.mod_lt _ (by norm_num)
    rw [hmod]
    have hN : ((N / 1000000 : Nat) : ℚ) * 1000000 + ((N % 1000000 : Nat) : ℚ) = (N : ℚ) := by
      have := Nat.div_add_mod N 1000000
      have h2 : ((1000000 * (N / 1000000) + N % 1000000 : Nat) : ℚ) = (N : ℚ) := by rw [this]
      push_cast at h2
      linarith
    simp only [FP.toRat, Bool.false_eq_true, if_false, one_mul]
    push_cast at herr
    rw [zpow_zero, mul_one, abs_le] at herr
    rw [abs_le]
    constructor
    · have := herr.1
      field_simp
      rw [div_le_iff₀ (by norm_num)]
      linarith
    · have := herr.2
      field_simp
      rw [div_le_iff₀ (by norm_num)]
      linarith

end Circle

namespace Circle

/-! ## The result is a `float` -/

/-- A finite result of rounding to binary32 is the value of a `float`. -/
theorem round32_is_float (s : Bool) (m : Nat) (e : Int) (n : Nat) (d : Int)
    (h : (FP.fin s m e).round binary32 = FP.fin s n d) :
    ∃ x : F32, FP.same x.toFP (FP.fin s n d) := by
  by_cases hm : m = 0
  · subst hm
    rw [round_zero] at h
    injection h with _ hn hd
    subst hn
    subst hd
    refine ⟨⟨s, 0, 0⟩, ?_⟩
    simp [F32.toFP, FP.same, binary32]
  · rw [round_fin binary32 s m e hm] at h
    have hle := rneAt_quantum_le binary32 m e
    have hge := le_rneAt_quantum binary32 hm e (by decide)
    have hqmin : binary32.qmin ≤ binary32.quantum m e := by
      unfold Fmt.quantum
      omega
    split_ifs at h with hov
    injection h with _ hn hd
    rw [hn] at hle hge hov
    rw [hd] at hge hov hqmin
    simp only [binary32] at hle hge hov hqmin
    clear hn hd
    rcases Nat.lt_or_ge n (2 ^ 23) with h1 | h1
    · have hd : d = -149 := by
        by_contra hc
        have := hge (by omega)
        norm_num at this h1
        omega
      subst hd
      refine ⟨⟨s, 0, ⟨n, by norm_num at h1 ⊢; omega⟩⟩, ?_⟩
      simp [F32.toFP, FP.same]
    · rcases Nat.lt_or_ge n (2 ^ 24) with h2 | h2
      · have hb : bitLen n = 24 := by
          have ha := (bitLen_le_iff n 24).mpr h2
          have hb := (lt_bitLen_iff n 23).mpr h1
          omega
        rw [hb] at hov
        have hd1 : (1 : Int) ≤ d + 150 := by omega
        have hd2 : d + 150 ≤ 254 := by omega
        refine ⟨⟨s, ⟨(d + 150).toNat, by omega⟩, ⟨n - 2 ^ 23, by norm_num at h2 ⊢; omega⟩⟩, ?_⟩
        have hx1 : ¬ (d + 150).toNat = 255 := by omega
        have hx2 : ¬ (d + 150).toNat = 0 := by omega
        have hx3 : 8388608 + (n - 2 ^ 23) = n := by norm_num at h1 ⊢; omega
        have hx4 : (((d + 150).toNat : Nat) : Int) - 150 = d := by omega
        simp only [F32.toFP, hx1, hx2, if_false, hx3, hx4, FP.same, and_self]
      · have hn : n = 2 ^ 24 := le_antisymm hle h2
        subst hn
        have hb : bitLen (2 ^ 24) = 25 := by decide
        rw [hb] at hov
        have hd1 : (1 : Int) ≤ d + 151 := by omega
        have hd2 : d + 151 ≤ 254 := by omega
        refine ⟨⟨s, ⟨(d + 151).toNat, by omega⟩, 0⟩, ?_⟩
        have hx1 : ¬ (d + 151).toNat = 255 := by omega
        have hx2 : ¬ (d + 151).toNat = 0 := by omega
        have hx4 : (((d + 151).toNat : Nat) : Int) - 150 = d + 1 := by omega
        simp only [F32.toFP, hx1, hx2, if_false, hx4, FP.same, true_and]
        rw [zpow_add₀ (by norm_num : (2 : ℚ) ≠ 0)]
        norm_num
        ring

theorem toFP_nan_bits (s : Bool) : (F32.mk s 255 1).toFP = FP.nan s := by
  cases s <;> decide

theorem toFP_inf_bits (s : Bool) : (F32.mk s 255 0).toFP = FP.inf s := by
  cases s <;> decide

/-- The value assigned to `area` is always that of a `float`. -/
theorem area_is_float (radius : F32) : ∃ x : F32, FP.same x.toFP (area radius) := by
  unfold area areaOf
  generalize FP.mul64 (FP.mul64 lit_3_14159 radius.toFP) radius.toFP = y
  cases y with
  | nan s =>
    refine ⟨F32.mk s 255 1, ?_⟩
    rw [toFP_nan_bits]
    exact rfl
  | inf s =>
    refine ⟨F32.mk s 255 0, ?_⟩
    rw [toFP_inf_bits]
    exact rfl
  | fin s m e =>
    by_cases hm : m = 0
    · subst hm
      rw [round_zero]
      exact round32_is_float s 0 e 0 (-149) (round_zero binary32 s e)
    · rw [round_fin binary32 s m e hm]
      split_ifs with hov
      · refine ⟨F32.mk s 255 0, ?_⟩
        rw [toFP_inf_bits]
        exact rfl
      · apply round32_is_float s m e
        rw [round_fin binary32 s m e hm, if_neg hov]

/-- The text of `%f` depends on the kind, sign and value of a datum only. -/
theorem fmt_f_same {x y : FP} (h : FP.same x y) : fmt_f x = fmt_f y := by
  match x, y, h with
  | FP.nan s, FP.nan t, h =>
    have h : s = t := h
    rw [h]
  | FP.inf s, FP.inf t, h =>
    have h : s = t := h
    rw [h]
  | FP.fin s m e, FP.fin t n d, h =>
    have h : s = t ∧ (m : ℚ) * (2 : ℚ) ^ e = (n : ℚ) * (2 : ℚ) ^ d := h
    obtain ⟨hs, hv⟩ := h
    subst hs
    have hv' : ((m * 1000000 : Nat) : ℚ) * (2 : ℚ) ^ e = ((n * 1000000 : Nat) : ℚ) * (2 : ℚ) ^ d := by
      push_cast
      linear_combination 1000000 * hv
    have hr : rneAt (m * 1000000) e 0 = rneAt (n * 1000000) d 0 :=
      le_antisymm (rneAt_mono 0 (le_of_eq hv')) (rneAt_mono 0 (le_of_eq hv'.symm))
    simp only [fmt_f, hr]

/-! ## Claims -/

/-- C1: for every parsed radius with `radius < 0`, both programs write exactly
"Negative radius values are not allowed.\n" to standard error, end with exit status 1, and
their standard output is the prompt alone, which holds no "Area:". -/
theorem C1_negative_radius_rejected (radius garbage : F32)
    (h : FP.lt radius.toFP (FP.ofInt 0) = true) :
    (stderrOf (ExampleCircle.main ⟨some radius, garbage⟩).trace
        = "Negative radius values are not allowed.\n" ∧
      (ExampleCircle.main ⟨some radius, garbage⟩).status = 1 ∧
      stdoutOf (ExampleCircle.main ⟨some radius, garbage⟩).trace = "Enter radius of circle: " ∧
      ¬ ("Area:".data <:+: (stdoutOf (ExampleCircle.main ⟨some radius, garbage⟩).trace).data)) ∧
    (stderrOf (DemoCircle.main ⟨some radius, garbage⟩).trace
        = "Negative radius values are not allowed.\n" ∧
      (DemoCircle.main ⟨some radius, garbage⟩).status = 1 ∧
      stdoutOf (DemoCircle.main ⟨some radius, garbage⟩).trace = "Enter radiu of circle: " ∧
      ¬ ("Area:".data <:+: (stdoutOf (DemoCircle.main ⟨some radius, garbage⟩).trace).data)) := by
  rw [example_main_neg radius garbage h, demo_main_neg radius garbage h]
  decide

/-- C1 at the radius -2. -/
theorem C1_witness :
    FP.lt f32_neg_two.toFP (FP.ofInt 0) = true ∧
    (stderrOf (ExampleCircle.main ⟨some f32_neg_two, f32_zero⟩).trace
        = "Negative radius values are not allowed.\n" ∧
      (ExampleCircle.main ⟨some f32_neg_two, f32_zero⟩).status = 1 ∧
      stdoutOf (ExampleCircle.main ⟨some f32_neg_two, f32_zero⟩).trace
        = "Enter radius of circle: " ∧
      ¬ ("Area:".data <:+:
        (stdoutOf (ExampleCircle.main ⟨some f32_neg_two, f32_zero⟩).trace).data)) ∧
    (stderrOf (DemoCircle.main ⟨some f32_neg_two, f32_zero⟩).trace
        = "Negative radius values are not allowed.\n" ∧
      (DemoCircle.main ⟨some f32_neg_two, f32_zero⟩).status = 1 ∧
      stdoutOf (DemoCircle.main ⟨some f32_neg_two, f32_zero⟩).trace
        = "Enter radiu of circle: " ∧
      ¬ ("Area:".data <:+:
        (stdoutOf (DemoCircle.main ⟨some f32_neg_two, f32_zero⟩).trace).data)) :=
  ⟨by decide, C1_negative_radius_rejected f32_neg_two f32_zero (by decide)⟩

/-- C3: for every parsed radius, each program ends with exit status 1 exactly when
`radius < 0` and with exit status 0 otherwise, no other status occurs, and a run with
status 0 writes nothing to standard error. -/
theorem C3_exit_status (radius garbage : F32) :
    (((ExampleCircle.main ⟨some radius, garbage⟩).status = 1 ↔
        FP.lt radius.toFP (FP.ofInt 0) = true) ∧
      ((ExampleCircle.main ⟨some radius, garbage⟩).status = 0 ↔
        FP.lt radius.toFP (FP.ofInt 0) = false) ∧
      ((ExampleCircle.main ⟨some radius, garbage⟩).status = 0 ∨
        (ExampleCircle.main ⟨some radius, garbage⟩).status = 1) ∧
      ((ExampleCircle.main ⟨some radius, garbage⟩).status = 0 →
        stderrOf (ExampleCircle.main ⟨some radius, garbage⟩).trace = "")) ∧
    (((DemoCircle.main ⟨some radius, garbage⟩).status = 1 ↔
        FP.lt radius.toFP (FP.ofInt 0) = true) ∧
      ((DemoCircle.main ⟨some radius, garbage⟩).status = 0 ↔
        FP.lt radius.toFP (FP.ofInt 0) = false) ∧
      ((DemoCircle.main ⟨some radius, garbage⟩).status = 0 ∨
        (DemoCircle.main ⟨some radius, garbage⟩).status = 1) ∧
      ((DemoCircle.main ⟨some radius, garbage⟩).status = 0 →
        stderrOf (DemoCircle.main ⟨some radius, garbage⟩).trace = "")) := by
  cases h : FP.lt radius.toFP (FP.ofInt 0)
  · rw [example_main_ok radius garbage h, demo_main_ok radius garbage h]
    simp [stderrOf]
  · rw [example_main_neg radius garbage h, demo_main_neg radius garbage h]
    simp

end Circle

namespace Circle

/-- C7: the radius 0 is accepted: nothing goes to standard error, the result line is
"Area: 0.000000" and the exit status is 0, in both programs. -/
theorem C7_zero_accepted (garbage : F32) :
    f32_zero.toFP.toRat = 0 ∧
    ExampleCircle.main ⟨some f32_zero, garbage⟩ =
      ⟨[Event.out "Enter radius of circle: ", Event.scan, Event.out "Area: 0.000000\n"], 0⟩ ∧
    DemoCircle.main ⟨some f32_zero, garbage⟩ =
      ⟨[Event.out "Enter radiu of circle: ", Event.scan, Event.out "Area: 0.000000\n"], 0⟩ ∧
    stderrOf (ExampleCircle.main ⟨some f32_zero, garbage⟩).trace = "" ∧
    stderrOf (DemoCircle.main ⟨some f32_zero, garbage⟩).trace = "" := by
  have h : FP.lt f32_zero.toFP (FP.ofInt 0) = false := by decide
  have ha : "Area: " ++ fmt_f (area f32_zero) ++ "\n" = "Area: 0.000000\n" := by decide
  rw [example_main_ok f32_zero garbage h, demo_main_ok f32_zero garbage h, ha]
  refine ⟨?_, rfl, rfl, by decide, by decide⟩
  simp [f32_zero, F32.toFP, FP.toRat]

/-- C6, as the claim has it, fails: for the input 5 neither program writes the line
"Area: 78.539750". -/
theorem C6_counterexample :
    Event.out "Area: 78.539750\n" ∉ (ExampleCircle.main ⟨some f32_five, f32_zero⟩).trace ∧
    Event.out "Area: 78.539750\n" ∉ (DemoCircle.main ⟨some f32_five, f32_zero⟩).trace := by
  decide

/-- C6, amended: for the input 5 the result line is "Area: 78.539749" (the `float` nearest to
78.53975 is 10294362 * 2^-17 = 78.5397491455...), and the exit status is 0. -/
theorem C6_input_five (garbage : F32) :
    f32_five.toFP.toRat = 5 ∧
    area f32_five = FP.fin false 10294362 (-17) ∧
    ExampleCircle.main ⟨some f32_five, garbage⟩ =
      ⟨[Event.out "Enter radius of circle: ", Event.scan, Event.out "Area: 78.539749\n"], 0⟩ ∧
    DemoCircle.main ⟨some f32_five, garbage⟩ =
      ⟨[Event.out "Enter radiu of circle: ", Event.scan, Event.out "Area: 78.539749\n"], 0⟩ := by
  have h : FP.lt f32_five.toFP (FP.ofInt 0) = false := by decide
  have ha : "Area: " ++ fmt_f (area f32_five) ++ "\n" = "Area: 78.539749\n" := by decide
  rw [example_main_ok f32_five garbage h, demo_main_ok f32_five garbage h, ha]
  refine ⟨?_, by decide, rfl, rfl⟩
  have h5 : f32_five.toFP = FP.fin false 10485760 (-21) := by decide
  rw [h5]
  norm_num [FP.toRat]

/-- C4 at the input 0 in `demo/circle.c`: the standard output is
"Enter radiu of circle: Area: 0.000000\n", which does not start with the prompt
"Enter radius of circle: " (`example/circle.c` writes that prompt). -/
theorem C4_demo_prompt :
    stdoutOf (DemoCircle.main ⟨some f32_zero, f32_zero⟩).trace
      = "Enter radiu of circle: Area: 0.000000\n" ∧
    ¬ ("Enter radius of circle: ".data <+:
      (stdoutOf (DemoCircle.main ⟨some f32_zero, f32_zero⟩).trace).data) ∧
    stdoutOf (ExampleCircle.main ⟨some f32_zero, f32_zero⟩).trace
      = "Enter radius of circle: Area: 0.000000\n" := by
  decide

/-- In `example/circle.c` the prompt is written before the input is read; the standard
output of an accepted radius is the prompt followed by the result line, and that of a
negative radius is the prompt alone. -/
theorem example_stdout (radius garbage : F32) :
    (FP.le (FP.ofInt 0) radius.toFP = true →
      (ExampleCircle.main ⟨some radius, garbage⟩).trace =
        [Event.out "Enter radius of circle: ", Event.scan,
          Event.out ("Area: " ++ fmt_f (area radius) ++ "\n")] ∧
      stdoutOf (ExampleCircle.main ⟨some radius, garbage⟩).trace =
        "Enter radius of circle: " ++ ("Area: " ++ fmt_f (area radius) ++ "\n")) ∧
    (FP.lt radius.toFP (FP.ofInt 0) = true →
      (ExampleCircle.main ⟨some radius, garbage⟩).trace =
        [Event.out "Enter radius of circle: ", Event.scan,
          Event.err "Negative radius values are not allowed.\n"] ∧
      stdoutOf (ExampleCircle.main ⟨some radius, garbage⟩).trace = "Enter radius of circle: ") := by
  constructor
  · intro h
    rw [example_main_ok radius garbage (not_lt_zero_of_zero_le h)]
    simp [stdoutOf]
  · intro h
    rw [example_main_neg radius garbage h]
    simp [stdoutOf]

/-- In `demo/circle.c` the same holds with the prompt "Enter radiu of circle: ". -/
theorem demo_stdout (radius garbage : F32) :
    (FP.le (FP.ofInt 0) radius.toFP = true →
      (DemoCircle.main ⟨some radius, garbage⟩).trace =
        [Event.out "Enter radiu of circle: ", Event.scan,
          Event.out ("Area: " ++ fmt_f (area radius) ++ "\n")] ∧
      stdoutOf (DemoCircle.main ⟨some radius, garbage⟩).trace =
        "Enter radiu of circle: " ++ ("Area: " ++ fmt_f (area radius) ++ "\n")) ∧
    (FP.lt radius.toFP (FP.ofInt 0) = true →
      (DemoCircle.main ⟨some radius, garbage⟩).trace =
        [Event.out "Enter radiu of circle: ", Event.scan,
          Event.err "Negative radius values are not allowed.\n"] ∧
      stdoutOf (DemoCircle.main ⟨some radius, garbage⟩).trace = "Enter radiu of circle: ") := by
  constructor
  · intro h
    rw [demo_main_ok radius garbage (not_lt_zero_of_zero_le h)]
    simp [stdoutOf]
  · intro h
    rw [demo_main_neg radius garbage h]
    simp [stdoutOf]

/-- C9, as the claim has it, fails: when `scanf` converts nothing, the two programs read each
its own indeterminate `radius` and may end with different exit statuses. -/
theorem C9_counterexample :
    (DemoCircle.main ⟨none, f32_one⟩).status ≠ (ExampleCircle.main ⟨none, f32_neg_two⟩).status ∧
    stderrOf (DemoCircle.main ⟨none, f32_one⟩).trace
      ≠ stderrOf (ExampleCircle.main ⟨none, f32_neg_two⟩).trace := by
  decide

/-- C9, amended: with the same content of `radius` after `scanf` (always so when a value is
converted), the two programs perform the same actions after their prompt, so that standard
error, exit status and the standard output after the prompt agree; and the prompt of
`demo/circle.c` is that of `example/circle.c` without its one character `s`. -/
theorem C9_equivalent_up_to_prompt (env : Env) :
    ∃ rest : List Event,
      (DemoCircle.main env).trace = Event.out "Enter radiu of circle: " :: rest ∧
      (ExampleCircle.main env).trace = Event.out "Enter radius of circle: " :: rest ∧
      (DemoCircle.main env).status = (ExampleCircle.main env).status ∧
      stderrOf (DemoCircle.main env).trace = stderrOf (ExampleCircle.main env).trace ∧
      stdoutOf (DemoCircle.main env).trace = "Enter radiu of circle: " ++ stdoutOf rest ∧
      stdoutOf (ExampleCircle.main env).trace = "Enter radius of circle: " ++ stdoutOf rest ∧
      "Enter radius of circle: " = "Enter radiu" ++ "s" ++ " of circle: " ∧
      "Enter radiu of circle: " = "Enter radiu" ++ " of circle: " := by
  cases h : FP.lt env.radius.toFP (FP.ofInt 0)
  · refine ⟨[Event.scan, Event.out ("Area: " ++ fmt_f (area env.radius) ++ "\n")], ?_⟩
    simp [DemoCircle.main, ExampleCircle.main, h, stderrOf, stdoutOf]
  · refine ⟨[Event.scan, Event.err "Negative radius values are not allowed.\n"], ?_⟩
    simp [DemoCircle.main, ExampleCircle.main, h, stderrOf, stdoutOf]

/-- C10: for accepted radii `0 <= r1 <= r2`, the area computed for `r1` is `<=` the area
computed for `r2`. -/
theorem C10_area_monotone (r1 r2 : F32) (h0 : FP.le (FP.ofInt 0) r1.toFP = true)
    (h12 : FP.le r1.toFP r2.toFP = true) : FP.le (area r1) (area r2) = true :=
  areaOf_mono r1.toFP r2.toFP h0 h12

/-- C10 at the radii 1 and 5. -/
theorem C10_witness :
    FP.le (FP.ofInt 0) f32_one.toFP = true ∧ FP.le f32_one.toFP f32_five.toFP = true ∧
      FP.le (area f32_one) (area f32_five) = true :=
  ⟨by decide, by decide, C10_area_monotone f32_one f32_five (by decide) (by decide)⟩

end Circle

namespace Circle

/-- C2, as the claim has it, fails: the radius 2^64 is accepted and its area overflows the
range of `float` (the stored area is `+inf`), and the radius 2^-80 is accepted and its area
underflows to 0, at relative distance 1 from `3.14159 * 2^-160`. -/
theorem C2_counterexample :
    (FP.le (FP.ofInt 0) f32_2p64.toFP = true ∧ f32_2p64.toFP = FP.fin false 8388608 41 ∧
      area f32_2p64 = FP.inf false) ∧
    (FP.le (FP.ofInt 0) f32_2m80.toFP = true ∧ f32_2m80.toFP = FP.fin false 8388608 (-103) ∧
      ¬ |(area f32_2m80).toRat - 314159 / 100000 * f32_2m80.toFP.toRat ^ 2|
        ≤ 314159 / 100000 * f32_2m80.toFP.toRat ^ 2 / 10000) := by
  refine ⟨⟨by decide, by decide, by decide⟩, by decide, by decide, ?_⟩
  have ha : area f32_2m80 = FP.fin false 0 (-149) := by decide
  have hr : f32_2m80.toFP = FP.fin false 8388608 (-103) := by decide
  rw [ha, hr]
  norm_num [FP.toRat, abs_of_pos]

/-- C2, amended: for every finite radius `>= 0` whose exact area `3.14159 * radius^2` is zero
or lies in the normal range of `float`, from `2^-126` to `(2^24 - 1) * 2^104`, the area stored
in the `float` and printed is finite and within the relative tolerance `10^-4` of
`3.14159 * radius^2`. -/
theorem C2_area_within_tolerance (radius garbage : F32)
    (hfin : radius.toFP.isFinite = true) (hge : FP.le (FP.ofInt 0) radius.toFP = true)
    (hlo : radius.toFP.toRat = 0 ∨
      (2 : ℚ) ^ (-126 : Int) ≤ 314159 / 100000 * radius.toFP.toRat ^ 2)
    (hhi : 314159 / 100000 * radius.toFP.toRat ^ 2 ≤ (2 ^ 24 - 1) * 2 ^ 104) :
    (ExampleCircle.main ⟨some radius, garbage⟩).trace =
      [Event.out "Enter radius of circle: ", Event.scan,
        Event.out ("Area: " ++ fmt_f (area radius) ++ "\n")] ∧
    (DemoCircle.main ⟨some radius, garbage⟩).trace =
      [Event.out "Enter radiu of circle: ", Event.scan,
        Event.out ("Area: " ++ fmt_f (area radius) ++ "\n")] ∧
    (area radius).isFinite = true ∧
    |(area radius).toRat - 314159 / 100000 * radius.toFP.toRat ^ 2|
      ≤ 314159 / 100000 * radius.toFP.toRat ^ 2 / 10000 := by
  have hnlt := not_lt_zero_of_zero_le hge
  rw [example_main_ok radius garbage hnlt, demo_main_ok radius garbage hnlt]
  refine ⟨rfl, rfl, ?_⟩
  unfold area
  cases hx : radius.toFP with
  | nan s => rw [hx] at hfin; simp [FP.isFinite] at hfin
  | inf s => rw [hx] at hfin; simp [FP.isFinite] at hfin
  | fin s m e =>
    rw [hx] at hge hlo hhi
    rw [zero_le_fin_iff] at hge
    by_cases hm : m = 0
    · subst hm
      rw [areaOf_zero]
      simp [FP.isFinite, FP.toRat]
    · have hs : s = false := by tauto
      subst hs
      simp only [FP.toRat, Bool.false_eq_true, if_false, one_mul] at hlo hhi ⊢
      have hpos := val_pos hm e
      have hlo' : (2 : ℚ) ^ (-126 : Int) ≤ 314159 / 100000 * ((m : ℚ) * (2 : ℚ) ^ e) ^ 2 := by
        rcases hlo with h | h
        · linarith
        · exact h
      obtain ⟨hm24, he1, he2⟩ := toFP_fin_bounds radius false m e hx
      obtain ⟨n, d, hn, herr⟩ := areaOf_err hm hm24 he1 he2 hlo' hhi
      rw [hn]
      refine ⟨rfl, ?_⟩
      simpa [FP.toRat] using herr

/-- C2 (amended) at the radius 5. -/
theorem C2_witness :
    f32_five.toFP.isFinite = true ∧ FP.le (FP.ofInt 0) f32_five.toFP = true ∧
    (2 : ℚ) ^ (-126 : Int) ≤ 314159 / 100000 * f32_five.toFP.toRat ^ 2 ∧
    314159 / 100000 * f32_five.toFP.toRat ^ 2 ≤ (2 ^ 24 - 1) * 2 ^ 104 ∧
    (area f32_five).isFinite = true ∧
    |(area f32_five).toRat - 314159 / 100000 * f32_five.toFP.toRat ^ 2|
      ≤ 314159 / 100000 * f32_five.toFP.toRat ^ 2 / 10000 := by
  have h5 : f32_five.toFP.toRat = 5 := by
    have h : f32_five.toFP = FP.fin false 10485760 (-21) := by decide
    rw [h]
    norm_num [FP.toRat]
  have hlo : (2 : ℚ) ^ (-126 : Int) ≤ 314159 / 100000 * f32_five.toFP.toRat ^ 2 := by
    rw [h5]
    norm_num
  have hhi : 314159 / 100000 * f32_five.toFP.toRat ^ 2 ≤ (2 ^ 24 - 1) * 2 ^ 104 := by
    rw [h5]
    norm_num
  have h := C2_area_within_tolerance f32_five f32_zero (by decide) (by decide) (Or.inr hlo) hhi
  exact ⟨by decide, by decide, hlo, hhi, h.2.2.1, h.2.2.2⟩

/-- C5, as the claim has it, fails: the radius 2^64 is accepted and the result line is
"Area: inf", which is no fixed-point decimal. -/
theorem C5_counterexample :
    FP.le (FP.ofInt 0) f32_2p64.toFP = true ∧
    ExampleCircle.main ⟨some f32_2p64, f32_zero⟩ =
      ⟨[Event.out "Enter radius of circle: ", Event.scan, Event.out "Area: inf\n"], 0⟩ ∧
    DemoCircle.main ⟨some f32_2p64, f32_zero⟩ =
      ⟨[Event.out "Enter radiu of circle: ", Event.scan, Event.out "Area: inf\n"], 0⟩ ∧
    ¬ ∃ ip fp : List Char,
      "Area: inf\n" = "Area: " ++ (String.mk ip ++ "." ++ String.mk fp) ++ "\n" ∧
      ip ≠ [] ∧ (∀ c ∈ ip, c.isDigit = true) ∧ fp.length = 6 ∧ (∀ c ∈ fp, c.isDigit = true) := by
  refine ⟨by decide, by decide, by decide, ?_⟩
  rintro ⟨ip, fp, h, h1, h2, _, _⟩
  have hd := congrArg String.data h
  simp only [String.data_append] at hd
  cases ip with
  | nil => exact h1 rfl
  | cons c rest =>
    have hc := h2 c (List.mem_cons_self _ _)
    simp at hd
    rw [← hd.1] at hc
    exact absurd hc (by decide)

/-- C5, amended: for every accepted radius (`radius >= 0`) whose computed area is finite, the
result line is "Area: ", then decimal digits, a point and exactly six decimal digits, then a
newline, and the number so written is the area rounded to the nearest multiple of `10^-6`;
when the area is not finite it is `+inf` (overflow of `float`, or an infinite radius) and the
result line is "Area: inf". -/
theorem C5_result_line_fixed_point (radius garbage : F32)
    (hge : FP.le (FP.ofInt 0) radius.toFP = true) :
    ((area radius).isFinite = true →
      ∃ ip fp : List Char,
        (ExampleCircle.main ⟨some radius, garbage⟩).trace =
          [Event.out "Enter radius of circle: ", Event.scan,
            Event.out ("Area: " ++ (String.mk ip ++ "." ++ String.mk fp) ++ "\n")] ∧
        (DemoCircle.main ⟨some radius, garbage⟩).trace =
          [Event.out "Enter radiu of circle: ", Event.scan,
            Event.out ("Area: " ++ (String.mk ip ++ "." ++ String.mk fp) ++ "\n")] ∧
        ip ≠ [] ∧ (∀ c ∈ ip, c.isDigit = true) ∧ fp.length = 6 ∧ (∀ c ∈ fp, c.isDigit = true) ∧
        |(decVal ip : ℚ) + (decVal fp : ℚ) / 10 ^ 6 - (area radius).toRat|
          ≤ 1 / (2 * 10 ^ 6)) ∧
    ((area radius).isFinite = false →
      area radius = FP.inf false ∧
      (ExampleCircle.main ⟨some radius, garbage⟩).trace =
        [Event.out "Enter radius of circle: ", Event.scan, Event.out "Area: inf\n"] ∧
      (DemoCircle.main ⟨some radius, garbage⟩).trace =
        [Event.out "Enter radiu of circle: ", Event.scan, Event.out "Area: inf\n"]) := by
  have hnlt := not_lt_zero_of_zero_le hge
  rw [example_main_ok radius garbage hnlt, demo_main_ok radius garbage hnlt]
  rcases area_shape radius hge with h | ⟨n, d, h⟩
  · rw [h]
    refine ⟨fun hfin => ?_, fun _ => ⟨rfl, by decide, by decide⟩⟩
    simp [FP.isFinite] at hfin
  · rw [h]
    refine ⟨fun _ => ?_, fun hfin => ?_⟩
    · obtain ⟨ip, fp, hfmt, h1, h2, h3, h4, h5⟩ := fmt_f_fixed n d
      exact ⟨ip, fp, by rw [hfmt], by rw [hfmt], h1, h2, h3, h4, h5⟩
    · simp [FP.isFinite] at hfin

/-- C5 (amended) at the radius 5, whose area is finite. -/
theorem C5_witness :
    FP.le (FP.ofInt 0) f32_five.toFP = true ∧ (area f32_five).isFinite = true ∧
    ∃ ip fp : List Char,
      (ExampleCircle.main ⟨some f32_five, f32_zero⟩).trace =
        [Event.out "Enter radius of circle: ", Event.scan,
          Event.out ("Area: " ++ (String.mk ip ++ "." ++ String.mk fp) ++ "\n")] ∧
      (DemoCircle.main ⟨some f32_five, f32_zero⟩).trace =
        [Event.out "Enter radiu of circle: ", Event.scan,
          Event.out ("Area: " ++ (String.mk ip ++ "." ++ String.mk fp) ++ "\n")] ∧
      ip ≠ [] ∧ (∀ c ∈ ip, c.isDigit = true) ∧ fp.length = 6 ∧ (∀ c ∈ fp, c.isDigit = true) ∧
      |(decVal ip : ℚ) + (decVal fp : ℚ) / 10 ^ 6 - (area f32_five).toRat| ≤ 1 / (2 * 10 ^ 6) :=
  ⟨by decide, by decide,
    (C5_result_line_fixed_point f32_five f32_zero (by decide)).1 (by decide)⟩

end Circle
